import Mathlib

/-!
Verification of the psd-tools compression codecs and accelerated blend module.

This file gives a shallow embedding, in Lean, of:

* the Apple PackBits RLE codec as implemented in the repository's Cython
  sources: the current `_rle.pyx` (tolerant decoder plus encoder), the
  earlier strict `_rle.pyx` decoder, and the historical
  `_packbits.pyx`-style encoder/decoder (state-machine encoder, sized
  strict decoder);
* the zip-with-prediction delta filter of `_compression.pyx`;
* the accelerated blend-mode module (`dissolve` and the 25 non-dissolve
  blend functions sharing the per-pixel alpha short-circuit skeleton).

Byte buffers are modelled as `List Nat` (each entry one byte); machine
arithmetic is modelled with `Nat`/`Int` and explicit `% 256` (or `% 65536`)
where the C code stores into a fixed-width cell.  Fallible decoders return
`Except DecodeErr`; `DecodeErr.valueError` models a raised `ValueError` and
`DecodeErr.indexError` models an out-of-bounds indexing error raised by a
bounds-checked memoryview access.
-/

/-- Error kinds raised by the strict PackBits decoders: `valueError` models
Python `ValueError('Invalid RLE compression')` style failures, `indexError`
models an `IndexError` from a bounds-checked out-of-range memoryview read. -/
inductive DecodeErr where
  | valueError
  | indexError
deriving DecidableEq, Repr

namespace Rle

/-- Loop of the tolerant PackBits decoder (current `_rle.pyx`,
`decode(data, size)`).  `data` is the remaining input (the source index `i`
points at its head), `rem` is the remaining output budget `size - j`.  The
imperative loop runs while `i < length and j < size`; a repeat run writes
`min (1+bit) (size-j)` copies of the following byte, a literal run copies
`min (min (length-i) (1+bit)) (size-j)` bytes but advances the input by the
full available amount, and header `128` is a no-op.  The function returns
the bytes actually written (the caller pads with zeros). -/
def decodeGo (data : List Nat) (rem : Nat) : List Nat :=
  match data with
  | [] => []
  | bit :: rest =>
    if rem = 0 then []
    else if 128 < bit then
      match rest with
      | [] => []
      | b :: rest2 =>
        let actual := min (257 - bit) rem
        List.replicate actual b ++ decodeGo rest2 (rem - actual)
    else if bit < 128 then
      match rest with
      | [] => []
      | r :: rs =>
        let available := min (r :: rs).length (bit + 1)
        let actual := min available rem
        (r :: rs).take actual ++ decodeGo ((r :: rs).drop available) (rem - actual)
    else decodeGo rest rem
termination_by data.length
decreasing_by
all_goals (try simp [List.length_drop])
all_goals omega

/-- Tolerant PackBits decoder of the current `_rle.pyx`: the result buffer is
resized to `size` (zero-initialised); a single-byte input returns the zero
buffer immediately; otherwise the loop writes sequentially and whatever was
not written stays zero. -/
def decode (data : List Nat) (size : Nat) : List Nat :=
  match data with
  | [_] => List.replicate size 0
  | _ =>
    let w := decodeGo data size
    w ++ List.replicate (size - w.length) 0

/-- Length of the maximal prefix of equal bytes (the run the repeat branch of
the encoder's outer loop scans, before the 128-byte cap is applied). -/
def runLen : List Nat → Nat
  | [] => 0
  | [_] => 1
  | a :: b :: t => if a = b then runLen (b :: t) + 1 else 1

/-- Inner literal-run loop of the current `_rle.pyx` encoder.  The argument
list is the suffix `data[j..]` and `n` is the current count `j - i`; the
result is the final `j - i`.  The loop breaks when the count reaches
`MAX_LEN = 127`; while the next two bytes differ it keeps scanning; on a
pair of equal bytes it breaks when the pair sits at the very end of the
input or the budget is nearly exhausted (`MAX_LEN - (j-i) <= 2`), or when
the pair extends to a triple; otherwise the first byte of the pair is
absorbed into the literal run. -/
def litLen : List Nat → Nat → Nat
  | [], n => n
  | [_], n => if 127 ≤ n then n else n + 1
  | a :: b :: u, n =>
    if 127 ≤ n then n
    else if a = b then
      match u with
      | [] => n
      | c :: u2 => if 125 ≤ n then n else if c = b then n else litLen (b :: c :: u2) (n + 1)
    else litLen (b :: u) (n + 1)

/-- Outer loop of the current `_rle.pyx` encoder, starting at position `i`
with `s = data[i..]`.  If the next two bytes are equal it emits a repeat
record for `min 128 (runLen s)` bytes (header `257 - count`, i.e. the
unsigned value of `-(j-i)`), otherwise a literal record of `litLen s 0`
bytes (header `count - 1`).  Advancing the position by a count `c ≥ 1`
(both run kinds always consume at least one byte) is written here as
`t.drop (c - 1)`, which equals `(a :: t).drop c`. -/
def encodeGo (s : List Nat) : List Nat :=
  match s with
  | [] => []
  | a :: t =>
    if t.head? = some a then
      (257 - min 128 (runLen (a :: t))) :: a ::
        encodeGo (t.drop (min 128 (runLen (a :: t)) - 1))
    else
      (litLen (a :: t) 0 - 1) ::
        ((a :: t).take (litLen (a :: t) 0) ++ encodeGo (t.drop (litLen (a :: t) 0 - 1)))
termination_by s.length
decreasing_by
all_goals (try simp [List.length_drop])
all_goals omega

/-- Current `_rle.pyx` encoder `encode(data)`: empty input encodes to itself,
a single byte to a one-byte literal record, anything longer runs the
greedy loop. -/
def encode (data : List Nat) : List Nat :=
  match data with
  | [] => []
  | [b] => [0, b]
  | _ => encodeGo data

end Rle

namespace RleStrict

/-- Loop of the strict PackBits decoder of the earlier `_rle.pyx` revision.
A repeat run first checks the output budget (`j+1+bit > size` raises
`ValueError`), then reads the byte to repeat; if the header was the last
input byte that read is out of bounds (modelled as `indexError`).  A
literal run raises `ValueError` when the input or the output budget is too
short.  Header `128` is skipped. -/
def decodeGo (data : List Nat) (rem : Nat) : Except DecodeErr (List Nat) :=
  match data with
  | [] => .ok []
  | bit :: rest =>
    if 128 < bit then
      if rem < 257 - bit then .error .valueError
      else
        match rest with
        | [] => .error .indexError
        | b :: rest2 =>
          (fun w => List.replicate (257 - bit) b ++ w) <$> decodeGo rest2 (rem - (257 - bit))
    else if bit < 128 then
      if rest.length < bit + 1 ∨ rem < bit + 1 then .error .valueError
      else (fun w => rest.take (bit + 1) ++ w) <$> decodeGo (rest.drop (bit + 1)) (rem - (bit + 1))
    else decodeGo rest rem
termination_by data.length
decreasing_by
all_goals (try simp [List.length_drop])
all_goals omega

/-- Strict PackBits decoder of the earlier `_rle.pyx`: a single-byte input
must be the no-op header `128` (and returns the *empty* buffer — the
resize to `size` has not happened yet at that point); otherwise after the
loop, when `size` is nonzero, having decoded a different number of bytes
raises `ValueError`. -/
def decode (data : List Nat) (size : Nat) : Except DecodeErr (List Nat) :=
  match data with
  | [d] => if d ≠ 128 then .error .valueError else .ok []
  | _ =>
    match decodeGo data size with
    | .error e => .error e
    | .ok w => if size ≠ 0 ∧ w.length ≠ size then .error .valueError else .ok w

end RleStrict

namespace Packbits

/-- Loop of the sized strict PackBits decoder (the `malloc`-based
`decode(data, size)`).  The signed header `h` is `v` for `v ≤ 127` and
`v - 256` otherwise; a literal run requires `src+length ≤ len(data)` and
`dst+length ≤ size`, a repeat run requires one more input byte and
`dst+length ≤ size`, both raising `ValueError` otherwise; `h = -128`
(that is `v = 128`) is a no-op. -/
def decodeGo (data : List Nat) (rem : Nat) : Except DecodeErr (List Nat) :=
  match data with
  | [] => .ok []
  | v :: rest =>
    if v ≤ 127 then
      if v + 1 ≤ rest.length ∧ v + 1 ≤ rem then
        (fun w => rest.take (v + 1) ++ w) <$> decodeGo (rest.drop (v + 1)) (rem - (v + 1))
      else .error .valueError
    else if v = 128 then decodeGo rest rem
    else
      match rest with
      | [] => .error .valueError
      | b :: rest2 =>
        if 257 - v ≤ rem then
          (fun w => List.replicate (257 - v) b ++ w) <$> decodeGo rest2 (rem - (257 - v))
        else .error .valueError
termination_by data.length
decreasing_by
all_goals (try simp [List.length_drop])
all_goals omega

/-- Sized strict PackBits decoder: after the loop, `dst < size` raises
`ValueError` ("Expected %d bytes but decoded only %d bytes"); on success
the written buffer (exactly `size` bytes) is returned. -/
def decode (data : List Nat) (size : Nat) : Except DecodeErr (List Nat) :=
  match decodeGo data size with
  | .error e => .error e
  | .ok w => if w.length < size then .error .valueError else .ok w

/-- State of the historical state-machine PackBits encoder: collecting a
literal (`raw`) buffer, or counting a repeat (`rle`) run. -/
inductive EncSt where
  | raw (buf : List Nat)
  | rle (c : Nat)

/-- `finish_raw(buf, result)`: flush a literal buffer — nothing if empty,
else the header `len(buf) - 1` followed by the buffer. -/
def finish_raw (buf : List Nat) : List Nat :=
  if buf = [] then [] else (buf.length - 1) :: buf

/-- `finish_rle(result, repeat_count, data, pos)`: emit the repeat header
`256 - (repeat_count - 1)` followed by the repeated byte. -/
def finish_rle (c : Nat) (b : Nat) : List Nat :=
  [256 - (c - 1), b]

/-- Main loop of the state-machine encoder.  `cur` is `data[pos]`, the list
is `data[pos+1..]`; the loop body compares `data[pos]` with `data[pos+1]`
and the final iteration (`pos = length - 1`) appends the last byte to the
pending literal buffer or closes the pending repeat run. -/
def encodeGo : Nat → List Nat → EncSt → List Nat
  | cur, [], .raw buf => finish_raw (buf ++ [cur])
  | cur, [], .rle c => finish_rle (c + 1) cur
  | cur, next :: rest, .raw buf =>
    if cur = next then finish_raw buf ++ encodeGo next rest (.rle 1)
    else if buf.length = 127 then finish_raw buf ++ encodeGo next rest (.raw [cur])
    else encodeGo next rest (.raw (buf ++ [cur]))
  | cur, next :: rest, .rle c =>
    if cur = next then
      if c = 127 then finish_rle 127 cur ++ encodeGo next rest (.rle 1)
      else encodeGo next rest (.rle (c + 1))
    else finish_rle (c + 1) cur ++ encodeGo next rest (.raw [])

/-- Historical state-machine PackBits encoder (`_packbits.pyx` and the
matching `_rle.pyx` revision share this code verbatim): empty input maps
to empty output, one byte to a literal record, otherwise the state
machine starts in `RAW` with an empty buffer. -/
def encode (data : List Nat) : List Nat :=
  match data with
  | [] => []
  | [b] => [0, b]
  | b :: next :: rest => encodeGo b (next :: rest) (.raw [])

end Packbits

/-- Abstract PackBits record: a literal run of bytes, a repeat run of `n`
copies of a byte, or the no-op header `128`. -/
inductive PBRecord where
  | lit (bs : List Nat)
  | rep (n : Nat) (b : Nat)
  | nop

/-- Bytes contributed by one record to the decoded output. -/
def recBytes : PBRecord → List Nat
  | .lit bs => bs
  | .rep n b => List.replicate n b
  | .nop => []

/-- Serialized form of one record: header `len - 1` before a literal run,
header `257 - n` before the byte of an `n`-fold repeat run, bare header
`128` for the no-op. -/
def recSerialize : PBRecord → List Nat
  | .lit bs => (bs.length - 1) :: bs
  | .rep n b => [257 - n, b]
  | .nop => [128]

/-- Concatenated decoded output of a record list. -/
def decodeAll : List PBRecord → List Nat
  | [] => []
  | r :: rs => recBytes r ++ decodeAll rs

/-- Concatenated serialization of a record list (a well-formed PackBits
stream). -/
def serializeAll : List PBRecord → List Nat
  | [] => []
  | r :: rs => recSerialize r ++ serializeAll rs

/-- Well-formedness of a record: literal runs carry 1–128 bytes (headers
0–127), repeat runs repeat 2–128 times (headers 129–255). -/
def GoodRec : PBRecord → Prop
  | .lit bs => 1 ≤ bs.length ∧ bs.length ≤ 128
  | .rep n _ => 2 ≤ n ∧ n ≤ 128
  | .nop => True

instance : DecidablePred GoodRec := by
  intro r
  cases r <;> simp only [GoodRec] <;> infer_instance

namespace Compression

/-- One update `arr[pos+1] += arr[pos]` of `_delta_decode_bytes` /
`_delta_decode_words` in `_compression.pyx`, at `pos = i`; the store into an
unsigned cell wraps modulo `m` (256 for bytes, 65536 for words). -/
def deltaStep (m i : Nat) (arr : List Nat) : List Nat :=
  arr.set (i + 1) ((arr.getD (i + 1) 0 + arr.getD i 0) % m)

/-- Inner loop `for x in range(w-1): arr[offset+x+1] += arr[offset+x]` of the
delta decoders, one image row starting at `offset`. -/
def deltaRow (m w offset : Nat) (arr : List Nat) : List Nat :=
  (List.range (w - 1)).foldl (fun a x => deltaStep m (offset + x) a) arr

/-- Outer loop `for y in range(h): offset = y*w; ...` of the delta decoders:
every row is delta-decoded in place within the flat sample buffer. -/
def deltaPlane (m w h : Nat) (arr : List Nat) : List Nat :=
  (List.range h).foldl (fun a y => deltaRow m w (y * w) a) arr

/-- Byte swap of one 16-bit word, as performed word-wise by
`array.byteswap()` on the whole buffer. -/
def byteswap16 (x : Nat) : Nat :=
  x % 256 * 256 + x / 256

/-- Sum of the input samples `0..x` of row `y` in a flat `w`-wide sample
buffer: the value the per-row running sum of the claim is measured
against. -/
def rowSum (arr : List Nat) (w y x : Nat) : Nat :=
  ((List.range (x + 1)).map fun t => arr.getD (y * w + t) 0).sum

/-- `_delta_decode(arr, mod, w, h)` of `_compression.pyx`: for `mod = 256`
run the byte delta decoder; for `mod = 256*256` run the word delta decoder
and then byte-swap the whole buffer; any other `mod` raises
`NotImplementedError` (modelled as `none`). -/
def _delta_decode (arr : List Nat) (mod w h : Nat) : Option (List Nat) :=
  if mod = 256 then some (deltaPlane 256 w h arr)
  else if mod = 256 * 256 then some ((deltaPlane (256 * 256) w h arr).map byteswap16)
  else none

end Compression

namespace Blend

/-- Per-channel darken: `min(a, b)` (`a` is the source channel `pdata2[k]`,
`b` the backdrop channel `pdata1[k]`, here and below). -/
def darkenF (a b : Nat) : Nat :=
  if a < b then a else b

/-- Per-channel multiply: `((a * b + 128) * 257) >> 16`, the module's
fixed-point rounding of `a*b/255`. -/
def multiplyF (a b : Nat) : Nat :=
  ((a * b + 128) * 257) >>> 16

/-- Per-channel color burn; `<UINT8>~b` is `255 - b`, and the final
`~(((b << 8) - b + (a >> 1)) / a)` (with `b` already replaced by `255 - b`)
is `255 -` the rounded division. -/
def color_burnF (a b : Nat) : Nat :=
  if b = 255 then 255
  else if a = 255 then b
  else if a ≤ 255 - b then 0
  else 255 - ((((255 - b) <<< 8) - (255 - b) + (a >>> 1)) / a)

/-- Per-channel linear burn: `max(0, a + b - 255)`. -/
def linear_burnF (a b : Nat) : Nat :=
  if 255 < a + b then a + b - 255 else 0

/-- Per-channel lighten: `max(a, b)`. -/
def lightenF (a b : Nat) : Nat :=
  if b < a then a else b

/-- Per-channel screen: `a + b - ((a * b + 128) * 257) >> 16`. -/
def screenF (a b : Nat) : Nat :=
  a + b - (((a * b + 128) * 257) >>> 16)

/-- Per-channel color dodge; `<UINT8>~a` is `255 - a`. -/
def color_dodgeF (a b : Nat) : Nat :=
  if b = 0 then 0
  else if a = 0 then b
  else if 255 - a ≤ b then 255
  else ((b <<< 8) - b + ((255 - a) >>> 1)) / (255 - a)

/-- Per-channel linear dodge: `min(255, a + b)`. -/
def linear_dodgeF (a b : Nat) : Nat :=
  if a + b < 255 then a + b else 255

/-- Per-channel overlay.  The C source computes
`x = ((a*b + 64) * 0x10101) >> 23` in a machine integer; this model follows
the written formula on `Nat` (for byte inputs with `a*b ≥ 32577` the C
intermediate would overflow a signed 32-bit int; no claim below evaluates
the formula in that region). -/
def overlayF (a b : Nat) : Nat :=
  if b < 128 then ((a * b + 64) * 0x10101) >>> 23
  else (a + a) + (b + b) - (((a * b + 64) * 0x10101) >>> 23) - 255

/-- Intermediate `x` of the soft-light cubic branch (`b < 64`):
`(((b << 4) - 3060)*b + 260100)*b + 32513`, computed in a signed machine
integer (the inner `(b << 4) - 3060` is negative) and stored into an
unsigned 32-bit variable; the final value is nonnegative, so `toNat` is
exact. -/
def softX (b : Nat) : Nat :=
  (((((b : Int) <<< 4) - 3060) * b + 260100) * b + 32513).toNat

/-- `D(b)` of soft light: for `b < 64` the fixed-point cubic
`(((x * 0x0C1) >> 15) + (x << 7) + x) >> 23`; otherwise
`<UINT8>(sqrt(b * 255) + 0.5)`, i.e. the integer nearest to `sqrt(255*b)`
(the IEEE double square root of an exactly-representable integer is
correctly rounded, and `floor(s + 1/2)` of the exact root `s` is
`Nat.sqrt n` when `n ≤ s*(s+1)` and `Nat.sqrt n + 1` otherwise). -/
def softD (b : Nat) : Nat :=
  if b < 64 then (((softX b * 0x0C1) >>> 15) + (softX b <<< 7) + softX b) >>> 23
  else if b * 255 ≤ Nat.sqrt (b * 255) * (Nat.sqrt (b * 255) + 1) then Nat.sqrt (b * 255)
  else Nat.sqrt (b * 255) + 1

/-- Per-channel soft light.  The `a < 128` branch subtracts a rounded
`(255 - 2a)*b*(255 - b)/255²` from `b`; the other branch adds a rounded
`(2a - 255)*(D(b) - b)/255` (computed in signed machine arithmetic, with
the `>> 16` of a negative value an arithmetic shift, i.e. flooring
division, and the store into the result byte taken modulo 256). -/
def soft_lightF (a b : Nat) : Nat :=
  if a < 128 then
    (((b : Int) -
        ((((255 - a - a) * b * (255 - b) + 32513) * 0x0203) >>> 16 +
            ((255 - a - a) * b * (255 - b) + 32513)) >>> 16) % 256).toNat
  else
    (((b : Int) +
        ((((a : Int) + a - 255) * ((softD b : Int) - b) + 128) * 257).fdiv 65536) % 256).toNat

/-- Per-channel hard light: overlay with the roles of `a` and `b` swapped
(the source keeps Photoshop's `255`-based recentering; see the module's
comment about the `a += a - 256` variant).  The same `Nat` reading of the
machine-integer formula as in `overlayF` applies. -/
def hard_lightF (a b : Nat) : Nat :=
  if a < 128 then ((a * b + 64) * 0x10101) >>> 23
  else (a + a) + (b + b) - (((a * b + 64) * 0x10101) >>> 23) - 255

/-- Per-channel vivid light: color burn of `2a` for `a < 128`, else color
dodge of `2a - 255`; `<UINT8>((~a) + (~a))` is `2*(255 - a)`.  Note the
`a < 128` branch lacks Color Burn's `a == 0` special case, as the source
comments. -/
def vivid_lightF (a b : Nat) : Nat :=
  if a < 128 then
    if b = 255 then 255
    else if a + a ≤ 255 - b then 0
    else 255 - ((((255 - b) <<< 8) - (255 - b) + ((a + a) >>> 1)) / (a + a))
  else
    if b = 0 then 0
    else if (255 - a) + (255 - a) ≤ b then 255
    else ((b <<< 8) - b + (((255 - a) + (255 - a)) >>> 1)) / ((255 - a) + (255 - a))

/-- Per-channel linear light: `x = a + a + b - 255` clamped below at 0 when
`a < 128` and above at 255 otherwise (the signed intermediate `x` is
nonnegative whenever `a ≥ 128`). -/
def linear_lightF (a b : Nat) : Nat :=
  if a < 128 then
    if 255 ≤ a + a + b then a + a + b - 255 else 0
  else
    if a + a + b - 255 ≤ 255 then a + a + b - 255 else 255

/-- Per-channel pin light: darken against `2a` when `a < 128`, else lighten
against `2a - 255`. -/
def pin_lightF (a b : Nat) : Nat :=
  if a < 128 then
    if a + a ≤ b then a + a else b
  else
    if b ≤ a + a - 255 then a + a - 255 else b

/-- Per-channel hard mix: 0 below the `a + b = 255` diagonal, 255 above it,
the tie resolved by which side of 128 `a` falls on. -/
def hard_mixF (a b : Nat) : Nat :=
  if a < 128 then
    if a + b < 255 then 0 else 255
  else
    if a + b ≤ 255 then 0 else 255

/-- Per-channel difference: `|b - a|`. -/
def differenceF (a b : Nat) : Nat :=
  if a < b then b - a else a - b

/-- Per-channel exclusion: `a + b - ((a * b + 64) * 0x10101) >> 23` (the
`Nat` reading of the machine-integer formula, as in `overlayF`). -/
def exclusionF (a b : Nat) : Nat :=
  a + b - (((a * b + 64) * 0x10101) >>> 23)

/-- Per-channel subtract: `max(0, b - a)`. -/
def subtractF (a b : Nat) : Nat :=
  if a < b then b - a else 0

/-- Per-channel divide: rounded `b * 255 / a` clamped at 255, with the
source's special cases. -/
def divideF (a b : Nat) : Nat :=
  if b = 0 then 0
  else if a = 255 then b
  else if a ≤ b then 255
  else ((b <<< 8) - b + (a >>> 1)) / a

/-- The `Color` struct of the component group: three `short` (signed)
channels. -/
structure IColor where
  r : Int
  g : Int
  b : Int

/-- `min(const Color*)`: smallest of the three channels, by the source's
comparison tree. -/
def cmin (c : IColor) : Int :=
  if c.r ≤ c.g then
    if c.r ≤ c.b then c.r else c.b
  else
    if c.g ≤ c.b then c.g else c.b

/-- `max(const Color*)`: largest of the three channels, by the source's
comparison tree. -/
def cmax (c : IColor) : Int :=
  if c.g ≤ c.r then
    if c.b ≤ c.r then c.r else c.b
  else
    if c.b ≤ c.g then c.g else c.b

/-- `get_lum`: YUV-style luminance
`((30*r + 59*g + 11*b + 51) * 0xA3D7) >> 22`, computed on the signed
channels (the `>> 22` of a negative machine integer is an arithmetic
shift, i.e. flooring division by `2^22`), returned as `UINT8`
(modulo 256). -/
def get_lum (c : IColor) : Nat :=
  ((((30 * c.r + 59 * c.g + 11 * c.b + 51) * 0xA3D7).fdiv 4194304) % 256).toNat

/-- Low-clip update of one channel in `clip_color` (the `n < 0` branch):
`v -= lum; v = (v == divisor) ? 2*lum : lum + (v*lum + (divisor >> 1)) / divisor`
with C truncating division. -/
def clipLow (lum divisor v : Int) : Int :=
  if v - lum = divisor then lum + lum
  else lum + ((v - lum) * lum + divisor.tdiv 2).tdiv divisor

/-- High-clip update of one channel in `clip_color` (the `x > 255` branch). -/
def clipHigh (lum divisor v : Int) : Int :=
  if v - lum = divisor then 255
  else lum + ((v - lum) * (255 - lum) + divisor.tdiv 2).tdiv divisor

/-- `clip_color`: clips out-of-range channels back into `[0, 255]` scaling
around the luminance.  `divisor` is stored into a `UINT8` (hence the
`% 256`); a wrapped zero divisor would be a C division by zero, modelled
here by Lean's `tdiv _ 0 = 0` convention. -/
def clip_color (c : IColor) : IColor :=
  let lum : Int := get_lum c
  if cmin c < 0 then
    if lum = 0 then ⟨0, 0, 0⟩
    else
      let divisor : Int := (lum - cmin c) % 256
      ⟨clipLow lum divisor c.r, clipLow lum divisor c.g, clipLow lum divisor c.b⟩
  else if 255 < cmax c then
    if lum = 255 then ⟨255, 255, 255⟩
    else
      let divisor : Int := (cmax c - lum) % 256
      ⟨clipHigh lum divisor c.r, clipHigh lum divisor c.g, clipHigh lum divisor c.b⟩
  else c

/-- `set_lum`: shift all channels by `new_lum - get_lum` and clip. -/
def set_lum (c : IColor) (newLum : Nat) : IColor :=
  clip_color ⟨c.r + ((newLum : Int) - get_lum c), c.g + ((newLum : Int) - get_lum c),
    c.b + ((newLum : Int) - get_lum c)⟩

/-- `get_sat`: `max - min`, returned as `UINT8`. -/
def get_sat (c : IColor) : Nat :=
  ((cmax c - cmin c) % 256).toNat

/-- Values `(new min, new mid, new max)` assigned by `set_sat` once the
role of each channel is known; `divisor` and `dividend` are stored into
`UINT8` variables. -/
def satVals (minV midV maxV : Int) (newSat : Nat) : Int × Int × Int :=
  let divisor : Int := (maxV - minV) % 256
  if divisor = 0 ∨ (newSat : Nat) = 0 then (0, 0, 0)
  else
    let dividend : Int := (midV - minV) % 256
    if dividend = divisor then (0, newSat, newSat)
    else (0, (dividend * newSat + divisor.tdiv 2).tdiv divisor, newSat)

/-- `set_sat`: locate min/mid/max by `set_mmm`'s comparison tree and write
the `satVals` results back into the corresponding channels. -/
def set_sat (c : IColor) (newSat : Nat) : IColor :=
  if c.r ≤ c.g then
    if c.r ≤ c.b then
      if c.g ≤ c.b then
        let v := satVals c.r c.g c.b newSat
        ⟨v.1, v.2.1, v.2.2⟩
      else
        let v := satVals c.r c.b c.g newSat
        ⟨v.1, v.2.2, v.2.1⟩
    else
      let v := satVals c.b c.r c.g newSat
      ⟨v.2.1, v.2.2, v.1⟩
  else
    if c.g ≤ c.b then
      if c.r ≤ c.b then
        let v := satVals c.g c.r c.b newSat
        ⟨v.2.1, v.1, v.2.2⟩
      else
        let v := satVals c.g c.b c.r newSat
        ⟨v.2.2, v.1, v.2.1⟩
    else
      let v := satVals c.b c.g c.r newSat
      ⟨v.2.2, v.2.1, v.1⟩

/-- Load a pixel's RGB triple into a `Color` struct. -/
def toIC (p : Nat × Nat × Nat) : IColor :=
  ⟨p.1, p.2.1, p.2.2⟩

/-- Store a `Color` struct back to bytes: each `<UINT8>` cast of a `short`
channel takes the value modulo 256. -/
def fromIC (c : IColor) : Nat × Nat × Nat :=
  ((c.r % 256).toNat, (c.g % 256).toNat, (c.b % 256).toNat)

/-- Hue blend core: `set_lum(set_sat(A, get_sat(B)), get_lum(B))` where `B`
is the backdrop pixel (`imdata1`) and `A` the source pixel (`imdata2`). -/
def hueCore (B A : Nat × Nat × Nat) : Nat × Nat × Nat :=
  fromIC (set_lum (set_sat (toIC A) (get_sat (toIC B))) (get_lum (toIC B)))

/-- Saturation blend core: `set_lum(set_sat(B, get_sat(A)), get_lum(B))`. -/
def saturationCore (B A : Nat × Nat × Nat) : Nat × Nat × Nat :=
  fromIC (set_lum (set_sat (toIC B) (get_sat (toIC A))) (get_lum (toIC B)))

/-- Color blend core: `set_lum(A, get_lum(B))`. -/
def colorCore (B A : Nat × Nat × Nat) : Nat × Nat × Nat :=
  fromIC (set_lum (toIC A) (get_lum (toIC B)))

/-- Luminosity blend core: `set_lum(B, get_lum(A))`. -/
def luminosityCore (B A : Nat × Nat × Nat) : Nat × Nat × Nat :=
  fromIC (set_lum (toIC B) (get_lum (toIC A)))

/-- Darker-color core: pick the whole triple with the smaller luminance. -/
def darker_colorCore (B A : Nat × Nat × Nat) : Nat × Nat × Nat :=
  if get_lum (toIC A) < get_lum (toIC B) then A else B

/-- Lighter-color core: pick the whole triple with the larger luminance. -/
def lighter_colorCore (B A : Nat × Nat × Nat) : Nat × Nat × Nat :=
  if get_lum (toIC B) < get_lum (toIC A) then A else B

/-- Lift a per-channel formula to RGB triples: the source loop
`for k in range(3): b, a = pdata1[k], pdata2[k]; pres[k] = f(...)`
applies `f` to (source, backdrop) channel pairs. -/
def mapCh (f : Nat → Nat → Nat) (B A : Nat × Nat × Nat) : Nat × Nat × Nat :=
  (f A.1 B.1, f A.2.1 B.2.1, f A.2.2 B.2.2)

/-- Shared per-pixel skeleton of every non-dissolve blend function of the
accelerated module: walk the two equal-length RGBA buffers four bytes at a
time; a zero source alpha (`pdata2[3] == 0`) copies the backdrop pixel
byte-for-byte, else a zero backdrop alpha (`pdata1[3] == 0`) copies the
source pixel byte-for-byte, and otherwise the three RGB result bytes come
from the mode's core formula (each stored through a `UINT8` cell, hence
`% 256`) and the result alpha is `pdata2[3]`, the source pixel's alpha. -/
def blendPixels (core : (Nat × Nat × Nat) → (Nat × Nat × Nat) → (Nat × Nat × Nat)) :
    List Nat → List Nat → List Nat
  | b0 :: b1 :: b2 :: b3 :: t1, a0 :: a1 :: a2 :: a3 :: t2 =>
    if a3 = 0 then b0 :: b1 :: b2 :: b3 :: blendPixels core t1 t2
    else if b3 = 0 then a0 :: a1 :: a2 :: a3 :: blendPixels core t1 t2
    else
      (core (b0, b1, b2) (a0, a1, a2)).1 % 256 ::
        (core (b0, b1, b2) (a0, a1, a2)).2.1 % 256 ::
          (core (b0, b1, b2) (a0, a1, a2)).2.2 % 256 ::
            a3 :: blendPixels core t1 t2
  | _, _ => []

/-- `darken(imdata1, imdata2)`. -/
def darken : List Nat → List Nat → List Nat := blendPixels (mapCh darkenF)

/-- `multiply(imdata1, imdata2)`. -/
def multiply : List Nat → List Nat → List Nat := blendPixels (mapCh multiplyF)

/-- `color_burn(imdata1, imdata2)`. -/
def color_burn : List Nat → List Nat → List Nat := blendPixels (mapCh color_burnF)

/-- `linear_burn(imdata1, imdata2)`. -/
def linear_burn : List Nat → List Nat → List Nat := blendPixels (mapCh linear_burnF)

/-- `darker_color(imdata1, imdata2)`. -/
def darker_color : List Nat → List Nat → List Nat := blendPixels darker_colorCore

/-- `lighten(imdata1, imdata2)`. -/
def lighten : List Nat → List Nat → List Nat := blendPixels (mapCh lightenF)

/-- `screen(imdata1, imdata2)`. -/
def screen : List Nat → List Nat → List Nat := blendPixels (mapCh screenF)

/-- `color_dodge(imdata1, imdata2)`. -/
def color_dodge : List Nat → List Nat → List Nat := blendPixels (mapCh color_dodgeF)

/-- `linear_dodge(imdata1, imdata2)`. -/
def linear_dodge : List Nat → List Nat → List Nat := blendPixels (mapCh linear_dodgeF)

/-- `lighter_color(imdata1, imdata2)`. -/
def lighter_color : List Nat → List Nat → List Nat := blendPixels lighter_colorCore

/-- `overlay(imdata1, imdata2)`. -/
def overlay : List Nat → List Nat → List Nat := blendPixels (mapCh overlayF)

/-- `soft_light(imdata1, imdata2)`. -/
def soft_light : List Nat → List Nat → List Nat := blendPixels (mapCh soft_lightF)

/-- `hard_light(imdata1, imdata2)`. -/
def hard_light : List Nat → List Nat → List Nat := blendPixels (mapCh hard_lightF)

/-- `vivid_light(imdata1, imdata2)`. -/
def vivid_light : List Nat → List Nat → List Nat := blendPixels (mapCh vivid_lightF)

/-- `linear_light(imdata1, imdata2)`. -/
def linear_light : List Nat → List Nat → List Nat := blendPixels (mapCh linear_lightF)

/-- `pin_light(imdata1, imdata2)`. -/
def pin_light : List Nat → List Nat → List Nat := blendPixels (mapCh pin_lightF)

/-- `hard_mix(imdata1, imdata2)`. -/
def hard_mix : List Nat → List Nat → List Nat := blendPixels (mapCh hard_mixF)

/-- `difference(imdata1, imdata2)`. -/
def difference : List Nat → List Nat → List Nat := blendPixels (mapCh differenceF)

/-- `exclusion(imdata1, imdata2)`. -/
def exclusion : List Nat → List Nat → List Nat := blendPixels (mapCh exclusionF)

/-- `subtract(imdata1, imdata2)`. -/
def subtract : List Nat → List Nat → List Nat := blendPixels (mapCh subtractF)

/-- `divide(imdata1, imdata2)`. -/
def divide : List Nat → List Nat → List Nat := blendPixels (mapCh divideF)

/-- `hue(imdata1, imdata2)`. -/
def hue : List Nat → List Nat → List Nat := blendPixels hueCore

/-- `saturation(imdata1, imdata2)`. -/
def saturation : List Nat → List Nat → List Nat := blendPixels saturationCore

/-- `color(imdata1, imdata2)`. -/
def color : List Nat → List Nat → List Nat := blendPixels colorCore

/-- `luminosity(imdata1, imdata2)`. -/
def luminosity : List Nat → List Nat → List Nat := blendPixels luminosityCore

/-- All non-dissolve blend functions of the accelerated module, each paired
with its per-pixel core (the function is `blendPixels` of that core by
definition). -/
def blendTable :
    List ((List Nat → List Nat → List Nat) ×
      ((Nat × Nat × Nat) → (Nat × Nat × Nat) → (Nat × Nat × Nat))) :=
  [(darken, mapCh darkenF), (multiply, mapCh multiplyF), (color_burn, mapCh color_burnF),
    (linear_burn, mapCh linear_burnF), (darker_color, darker_colorCore),
    (lighten, mapCh lightenF), (screen, mapCh screenF), (color_dodge, mapCh color_dodgeF),
    (linear_dodge, mapCh linear_dodgeF), (lighter_color, lighter_colorCore),
    (overlay, mapCh overlayF), (soft_light, mapCh soft_lightF),
    (hard_light, mapCh hard_lightF), (vivid_light, mapCh vivid_lightF),
    (linear_light, mapCh linear_lightF), (pin_light, mapCh pin_lightF),
    (hard_mix, mapCh hard_mixF), (difference, mapCh differenceF),
    (exclusion, mapCh exclusionF), (subtract, mapCh subtractF), (divide, mapCh divideF),
    (hue, hueCore), (saturation, saturationCore), (color, colorCore),
    (luminosity, luminosityCore)]

/-- Loop of `dissolve(imdata1, imdata2)`: per pixel one pseudo-random draw
`rand() % 255 + 1` is consumed in scan order (`next` is the generator's
step function on its state type); if the source alpha `pdata2[3]` is below
the draw the backdrop pixel is copied unchanged, else the source RGB is
taken with alpha forced to 255. -/
def dissolveGo {S : Type} (next : S → Nat × S) :
    S → List Nat → List Nat → List Nat
  | s, b0 :: b1 :: b2 :: b3 :: t1, a0 :: a1 :: a2 :: a3 :: t2 =>
    if a3 < (next s).1 % 255 + 1 then
      b0 :: b1 :: b2 :: b3 :: dissolveGo next (next s).2 t1 t2
    else
      a0 :: a1 :: a2 :: 255 :: dissolveGo next (next s).2 t1 t2
  | _, _, _ => []

/-- `dissolve(imdata1, imdata2)`: the function begins with
`srand(314159265)`, so the generator state that was current before the
call (`rngState`) is discarded and the draw sequence always starts from
the state seeded by the fixed constant.  `next` and `srand` model the C
library's `rand`/`srand` pair. -/
def dissolve {S : Type} (next : S → Nat × S) (srand : Nat → S) (rngState : S)
    (imdata1 imdata2 : List Nat) : List Nat :=
  dissolveGo next (srand 314159265) imdata1 imdata2

end Blend

/-! ## Step lemmas for the PackBits decoders -/

theorem rleDecodeGo_nil (rem : Nat) : Rle.decodeGo [] rem = [] := by
  rw [Rle.decodeGo.eq_def]

theorem rleDecodeGo_zero (data : List Nat) : Rle.decodeGo data 0 = [] := by
  cases data <;> rw [Rle.decodeGo.eq_def] <;> simp

theorem rleDecodeGo_nop (rest : List Nat) (rem : Nat) (h : rem ≠ 0) :
    Rle.decodeGo (128 :: rest) rem = Rle.decodeGo rest rem := by
  rw [Rle.decodeGo.eq_def]; simp [h]

theorem rleDecodeGo_rep (bit b : Nat) (rest : List Nat) (rem : Nat)
    (h1 : 128 < bit) (h2 : rem ≠ 0) :
    Rle.decodeGo (bit :: b :: rest) rem =
      List.replicate (min (257 - bit) rem) b ++
        Rle.decodeGo rest (rem - min (257 - bit) rem) := by
  rw [Rle.decodeGo.eq_def]; simp [h1, h2]

theorem rleDecodeGo_lit (bit r : Nat) (rs : List Nat) (rem : Nat)
    (h1 : bit < 128) (h2 : rem ≠ 0) :
    Rle.decodeGo (bit :: r :: rs) rem =
      (r :: rs).take (min (min (r :: rs).length (bit + 1)) rem) ++
        Rle.decodeGo ((r :: rs).drop (min (r :: rs).length (bit + 1)))
          (rem - min (min (r :: rs).length (bit + 1)) rem) := by
  have hne : ¬ 128 < bit := by omega
  rw [Rle.decodeGo.eq_def]; simp [h1, h2, hne]

theorem rleDecodeGo_length_le (data : List Nat) (rem : Nat) :
    (Rle.decodeGo data rem).length ≤ rem := by
  induction data, rem using Rle.decodeGo.induct with
  | case1 rem => rw [rleDecodeGo_nil]; simp
  | case2 bit rest => rw [rleDecodeGo_zero]; simp
  | case3 rem bit h1 h2 => rw [Rle.decodeGo.eq_def]; simp [h1, h2]
  | case4 rem bit h1 h2 b rest2 actual ih =>
    have ih2 : (Rle.decodeGo rest2 (rem - min (257 - bit) rem)).length ≤
        rem - min (257 - bit) rem := ih
    rw [rleDecodeGo_rep bit b rest2 rem h2 h1]
    simp only [List.length_append, List.length_replicate]
    omega
  | case5 rem bit h1 h2 h3 => rw [Rle.decodeGo.eq_def]; simp [h1, h2, h3]
  | case6 rem bit h1 h2 h3 r rs available actual ih =>
    have ih2 : (Rle.decodeGo ((r :: rs).drop (min (r :: rs).length (bit + 1)))
        (rem - min (min (r :: rs).length (bit + 1)) rem)).length ≤
        rem - min (min (r :: rs).length (bit + 1)) rem := ih
    rw [rleDecodeGo_lit bit r rs rem h3 h1]
    simp only [List.length_append, List.length_take]
    omega
  | case7 rem bit rest h1 h2 h3 ih =>
    have h128 : bit = 128 := by omega
    subst h128
    rw [rleDecodeGo_nop rest rem h1]
    exact ih

/-! ## Decoding a well-formed record stream -/

theorem rleDecodeGo_serializeAll (rs : List PBRecord) (h : ∀ r ∈ rs, GoodRec r) :
    Rle.decodeGo (serializeAll rs) (decodeAll rs).length = decodeAll rs := by
  induction rs with
  | nil => simp [serializeAll, decodeAll, rleDecodeGo_nil]
  | cons r rs ih =>
    have hr : GoodRec r := h r (List.mem_cons_self r rs)
    have hrs : ∀ x ∈ rs, GoodRec x := fun x hx => h x (List.mem_cons_of_mem r hx)
    have ihr := ih hrs
    cases r with
    | nop =>
      simp only [serializeAll, recSerialize, decodeAll, recBytes, List.nil_append,
        List.singleton_append]
      by_cases h0 : (decodeAll rs).length = 0
      · have : decodeAll rs = [] := List.length_eq_zero.mp h0
        rw [h0, rleDecodeGo_zero, this]
      · rw [rleDecodeGo_nop _ _ h0]
        exact ihr
    | rep n b =>
      obtain ⟨hn2, hn128⟩ : 2 ≤ n ∧ n ≤ 128 := hr
      simp only [serializeAll, recSerialize, decodeAll, recBytes]
      have hbit : 128 < 257 - n := by omega
      have hlen : (List.replicate n b ++ decodeAll rs).length = n + (decodeAll rs).length := by
        simp
      rw [hlen]
      have hnz : n + (decodeAll rs).length ≠ 0 := by omega
      rw [List.cons_append, List.cons_append, List.nil_append,
        rleDecodeGo_rep (257 - n) b (serializeAll rs) _ hbit hnz]
      have h257 : 257 - (257 - n) = n := by omega
      have hmin : min (257 - (257 - n)) (n + (decodeAll rs).length) = n := by
        rw [h257]; omega
      rw [hmin]
      have hsub : n + (decodeAll rs).length - n = (decodeAll rs).length := by omega
      rw [hsub, ihr]
    | lit bs =>
      obtain ⟨hb1, hb128⟩ : 1 ≤ bs.length ∧ bs.length ≤ 128 := hr
      simp only [serializeAll, recSerialize, decodeAll, recBytes]
      have hbit : bs.length - 1 < 128 := by omega
      have hnz : (bs ++ decodeAll rs).length ≠ 0 := by
        simp only [List.length_append]; omega
      obtain ⟨b0, bs0, hbs⟩ : ∃ b0 bs0, bs = b0 :: bs0 := by
        cases bs with
        | nil => simp at hb1
        | cons x xs => exact ⟨x, xs, rfl⟩
      have hshape : bs ++ serializeAll rs = b0 :: (bs0 ++ serializeAll rs) := by
        rw [hbs]; simp
      rw [List.cons_append, hshape,
        rleDecodeGo_lit (bs.length - 1) b0 (bs0 ++ serializeAll rs) _ hbit hnz]
      rw [← hshape]
      have hlenapp : (bs ++ serializeAll rs).length = bs.length + (serializeAll rs).length := by
        simp
      have hheads : bs.length - 1 + 1 = bs.length := by omega
      have havail : min (bs ++ serializeAll rs).length (bs.length - 1 + 1) = bs.length := by
        rw [hheads, hlenapp]; omega
      have hact : min bs.length (bs ++ decodeAll rs).length = bs.length := by
        simp only [List.length_append]; omega
      rw [havail, hheads] at *
      have htake : (bs ++ serializeAll rs).take bs.length = bs := List.take_left _ _
      have hdrop : (bs ++ serializeAll rs).drop bs.length = serializeAll rs := List.drop_left _ _
      have hlen2 : (bs ++ decodeAll rs).length = bs.length + (decodeAll rs).length := by simp
      rw [hlen2]
      have hmin2 : min bs.length (bs.length + (decodeAll rs).length) = bs.length := by omega
      rw [hmin2, htake, hdrop]
      have hsub : bs.length + (decodeAll rs).length - bs.length = (decodeAll rs).length := by
        omega
      rw [hsub, ihr]

theorem recSerialize_ne_nil (r : PBRecord) : recSerialize r ≠ [] := by
  cases r <;> simp [recSerialize]

theorem serializeAll_eq_nil (rs : List PBRecord) (h : serializeAll rs = []) : rs = [] := by
  cases rs with
  | nil => rfl
  | cons r rs =>
    simp only [serializeAll] at h
    exact absurd (List.append_eq_nil.mp h).1 (recSerialize_ne_nil r)

theorem serializeAll_single (rs : List PBRecord) (h : ∀ r ∈ rs, GoodRec r) (x : Nat)
    (hx : serializeAll rs = [x]) : decodeAll rs = [] := by
  cases rs with
  | nil => rfl
  | cons r rs =>
    simp only [serializeAll] at hx
    have hr : GoodRec r := h r (List.mem_cons_self r rs)
    cases r with
    | lit bs =>
      obtain ⟨hb1, _⟩ : 1 ≤ bs.length ∧ bs.length ≤ 128 := hr
      have : (recSerialize (PBRecord.lit bs) ++ serializeAll rs).length = 1 := by rw [hx]; rfl
      simp only [recSerialize, List.length_append, List.length_cons] at this
      omega
    | rep n b =>
      have : (recSerialize (PBRecord.rep n b) ++ serializeAll rs).length = 1 := by rw [hx]; rfl
      simp only [recSerialize, List.length_append, List.length_cons] at this
      omega
    | nop =>
      have hlen : (recSerialize PBRecord.nop ++ serializeAll rs).length = 1 := by rw [hx]; rfl
      simp only [recSerialize, List.length_append, List.length_cons, List.length_nil] at hlen
      have : serializeAll rs = [] := List.length_eq_zero.mp (by omega)
      have hrs : rs = [] := serializeAll_eq_nil rs this
      subst hrs
      rfl

theorem rleDecode_serializeAll (rs : List PBRecord) (h : ∀ r ∈ rs, GoodRec r) :
    Rle.decode (serializeAll rs) (decodeAll rs).length = decodeAll rs := by
  have hgo := rleDecodeGo_serializeAll rs h
  match hs : serializeAll rs with
  | [] =>
    have : rs = [] := serializeAll_eq_nil rs hs
    subst this
    simp [Rle.decode, decodeAll, rleDecodeGo_nil]
  | [x] =>
    have hd : decodeAll rs = [] := serializeAll_single rs h x hs
    rw [hd]
    simp [Rle.decode]
  | x :: y :: zs =>
    show (let w := Rle.decodeGo (x :: y :: zs) (decodeAll rs).length
      w ++ List.replicate ((decodeAll rs).length - w.length) 0) = decodeAll rs
    rw [← hs, hgo]
    simp

/-! ## Step lemmas for the strict decoders -/

theorem pbDecodeGo_lit (v : Nat) (rest : List Nat) (rem : Nat) (hv : v ≤ 127)
    (hin : v + 1 ≤ rest.length) (hout : v + 1 ≤ rem) :
    Packbits.decodeGo (v :: rest) rem =
      (fun w => rest.take (v + 1) ++ w) <$> Packbits.decodeGo (rest.drop (v + 1)) (rem - (v + 1)) := by
  rw [Packbits.decodeGo.eq_def]
  simp [hv, hin, hout]

theorem pbDecodeGo_lit_err (v : Nat) (rest : List Nat) (rem : Nat) (hv : v ≤ 127)
    (hbad : rest.length < v + 1 ∨ rem < v + 1) :
    Packbits.decodeGo (v :: rest) rem = .error .valueError := by
  rw [Packbits.decodeGo.eq_def]
  have : ¬ (v + 1 ≤ rest.length ∧ v + 1 ≤ rem) := by omega
  simp [hv, this]

theorem pbDecodeGo_nop (rest : List Nat) (rem : Nat) :
    Packbits.decodeGo (128 :: rest) rem = Packbits.decodeGo rest rem := by
  rw [Packbits.decodeGo.eq_def]
  simp

theorem pbDecodeGo_rep (v b : Nat) (rest : List Nat) (rem : Nat) (hv : 128 < v)
    (hout : 257 - v ≤ rem) :
    Packbits.decodeGo (v :: b :: rest) rem =
      (fun w => List.replicate (257 - v) b ++ w) <$>
        Packbits.decodeGo rest (rem - (257 - v)) := by
  have h1 : ¬ v ≤ 127 := by omega
  have h2 : v ≠ 128 := by omega
  rw [Packbits.decodeGo.eq_def]
  simp [h1, h2, hout]

theorem pbDecodeGo_rep_err (v : Nat) (rest : List Nat) (rem : Nat) (hv : 128 < v)
    (hbad : rest = [] ∨ rem < 257 - v) :
    Packbits.decodeGo (v :: rest) rem = .error .valueError := by
  have h1 : ¬ v ≤ 127 := by omega
  have h2 : v ≠ 128 := by omega
  rw [Packbits.decodeGo.eq_def]
  rcases hbad with hnil | hover
  · subst hnil; simp [h1, h2]
  · cases rest with
    | nil => simp [h1, h2]
    | cons b rest2 =>
      have : ¬ 257 - v ≤ rem := by omega
      simp [h1, h2, this]

theorem rsDecodeGo_rep (bit b : Nat) (rest : List Nat) (rem : Nat) (hv : 128 < bit)
    (hout : 257 - bit ≤ rem) :
    RleStrict.decodeGo (bit :: b :: rest) rem =
      (fun w => List.replicate (257 - bit) b ++ w) <$>
        RleStrict.decodeGo rest (rem - (257 - bit)) := by
  have h2 : ¬ rem < 257 - bit := by omega
  rw [RleStrict.decodeGo.eq_def]
  simp [hv, h2]

theorem rsDecodeGo_rep_overrun (bit : Nat) (rest : List Nat) (rem : Nat) (hv : 128 < bit)
    (hover : rem < 257 - bit) :
    RleStrict.decodeGo (bit :: rest) rem = .error .valueError := by
  rw [RleStrict.decodeGo.eq_def]
  simp [hv, hover]

theorem rsDecodeGo_rep_truncated (bit : Nat) (rem : Nat) (hv : 128 < bit)
    (hout : 257 - bit ≤ rem) :
    RleStrict.decodeGo [bit] rem = .error .indexError := by
  have h2 : ¬ rem < 257 - bit := by omega
  rw [RleStrict.decodeGo.eq_def]
  simp [hv, h2]

theorem rsDecodeGo_lit (bit : Nat) (rest : List Nat) (rem : Nat) (hv : bit < 128)
    (hin : bit + 1 ≤ rest.length) (hout : bit + 1 ≤ rem) :
    RleStrict.decodeGo (bit :: rest) rem =
      (fun w => rest.take (bit + 1) ++ w) <$>
        RleStrict.decodeGo (rest.drop (bit + 1)) (rem - (bit + 1)) := by
  have h1 : ¬ 128 < bit := by omega
  have h2 : ¬ (rest.length < bit + 1 ∨ rem < bit + 1) := by omega
  rw [RleStrict.decodeGo.eq_def]
  simp [h1, hv, h2]

theorem rsDecodeGo_lit_err (bit : Nat) (rest : List Nat) (rem : Nat) (hv : bit < 128)
    (hbad : rest.length < bit + 1 ∨ rem < bit + 1) :
    RleStrict.decodeGo (bit :: rest) rem = .error .valueError := by
  have h1 : ¬ 128 < bit := by omega
  rw [RleStrict.decodeGo.eq_def]
  simp [h1, hv, hbad]

theorem rsDecodeGo_nop (rest : List Nat) (rem : Nat) :
    RleStrict.decodeGo (128 :: rest) rem = RleStrict.decodeGo rest rem := by
  rw [RleStrict.decodeGo.eq_def]
  simp

/-! ## Length bounds for the strict decoders -/

theorem pbDecodeGo_ok_length (data : List Nat) (rem : Nat) (w : List Nat)
    (h : Packbits.decodeGo data rem = .ok w) : w.length ≤ rem := by
  induction data, rem using Packbits.decodeGo.induct generalizing w with
  | case1 rem =>
    rw [Packbits.decodeGo.eq_def] at h
    cases h
    simp
  | case2 rem v rest hv hok ih =>
    rw [pbDecodeGo_lit v rest rem hv hok.1 hok.2] at h
    cases hgo : Packbits.decodeGo (rest.drop (v + 1)) (rem - (v + 1)) with
    | error e => rw [hgo] at h; simp at h
    | ok w2 =>
      rw [hgo] at h
      simp only [Except.map_ok] at h
      cases h
      have := ih w2 hgo
      simp only [List.length_append, List.length_take]
      omega
  | case3 rem v rest hv hbad =>
    rw [pbDecodeGo_lit_err v rest rem hv (by omega)] at h
    simp at h
  | case4 rem rest hv ih =>
    rw [pbDecodeGo_nop] at h
    exact ih w h
  | case5 rem v hv h128 =>
    rw [pbDecodeGo_rep_err v [] rem (by omega) (Or.inl rfl)] at h
    simp at h
  | case6 rem v hv h128 b rest2 hout ih =>
    rw [pbDecodeGo_rep v b rest2 rem (by omega) hout] at h
    cases hgo : Packbits.decodeGo rest2 (rem - (257 - v)) with
    | error e => rw [hgo] at h; simp at h
    | ok w2 =>
      rw [hgo] at h
      simp only [Except.map_ok] at h
      cases h
      have := ih w2 hgo
      simp only [List.length_append, List.length_replicate]
      omega
  | case7 rem v hv h128 b rest2 hout =>
    rw [pbDecodeGo_rep_err v (b :: rest2) rem (by omega) (Or.inr (by omega))] at h
    simp at h

theorem rsDecodeGo_ok_length (data : List Nat) (rem : Nat) (w : List Nat)
    (h : RleStrict.decodeGo data rem = .ok w) : w.length ≤ rem := by
  induction data, rem using RleStrict.decodeGo.induct generalizing w with
  | case1 rem =>
    rw [RleStrict.decodeGo.eq_def] at h
    cases h
    simp
  | case2 rem bit rest hv hover =>
    rw [rsDecodeGo_rep_overrun bit rest rem hv hover] at h
    simp at h
  | case3 rem bit hv hno =>
    rw [rsDecodeGo_rep_truncated bit rem hv (by omega)] at h
    simp at h
  | case4 rem bit hv hno b rest2 ih =>
    rw [rsDecodeGo_rep bit b rest2 rem hv (by omega)] at h
    cases hgo : RleStrict.decodeGo rest2 (rem - (257 - bit)) with
    | error e => rw [hgo] at h; simp at h
    | ok w2 =>
      rw [hgo] at h
      simp only [Except.map_ok] at h
      cases h
      have := ih w2 hgo
      simp only [List.length_append, List.length_replicate]
      omega
  | case5 rem bit rest h1 h2 hbad =>
    rw [rsDecodeGo_lit_err bit rest rem h2 hbad] at h
    simp at h
  | case6 rem bit rest h1 h2 hok ih =>
    rw [rsDecodeGo_lit bit rest rem h2 (by omega) (by omega)] at h
    cases hgo : RleStrict.decodeGo (rest.drop (bit + 1)) (rem - (bit + 1)) with
    | error e => rw [hgo] at h; simp at h
    | ok w2 =>
      rw [hgo] at h
      simp only [Except.map_ok] at h
      cases h
      have := ih w2 hgo
      simp only [List.length_append, List.length_take]
      omega
  | case7 rem bit rest h1 h2 ih =>
    have hb : bit = 128 := by omega
    subst hb
    rw [rsDecodeGo_nop] at h
    exact ih w h

theorem pbDecodeGo_serializeAll (rs : List PBRecord) (h : ∀ r ∈ rs, GoodRec r) :
    Packbits.decodeGo (serializeAll rs) (decodeAll rs).length = .ok (decodeAll rs) := by
  induction rs with
  | nil => rw [serializeAll, decodeAll, Packbits.decodeGo.eq_def]
  | cons r rs ih =>
    have hr : GoodRec r := h r (List.mem_cons_self r rs)
    have hrs : ∀ x ∈ rs, GoodRec x := fun x hx => h x (List.mem_cons_of_mem r hx)
    have ihr := ih hrs
    cases r with
    | nop =>
      simp only [serializeAll, recSerialize, decodeAll, recBytes, List.nil_append,
        List.singleton_append]
      rw [pbDecodeGo_nop]
      exact ihr
    | rep n b =>
      obtain ⟨hn2, hn128⟩ : 2 ≤ n ∧ n ≤ 128 := hr
      simp only [serializeAll, recSerialize, decodeAll, recBytes, List.cons_append,
        List.nil_append, List.length_append, List.length_replicate]
      have h257 : 257 - (257 - n) = n := by omega
      rw [pbDecodeGo_rep (257 - n) b (serializeAll rs) _ (by omega) (by omega)]
      rw [h257]
      have hsub : n + (decodeAll rs).length - n = (decodeAll rs).length := by omega
      rw [hsub, ihr]
      rfl
    | lit bs =>
      obtain ⟨hb1, hb128⟩ : 1 ≤ bs.length ∧ bs.length ≤ 128 := hr
      simp only [serializeAll, recSerialize, decodeAll, recBytes, List.cons_append,
        List.length_append]
      have hheads : bs.length - 1 + 1 = bs.length := by omega
      have hin : bs.length - 1 + 1 ≤ (bs ++ serializeAll rs).length := by
        simp only [List.length_append]; omega
      rw [pbDecodeGo_lit (bs.length - 1) (bs ++ serializeAll rs) _ (by omega) hin (by omega)]
      rw [hheads]
      have htake : (bs ++ serializeAll rs).take bs.length = bs := List.take_left _ _
      have hdrop : (bs ++ serializeAll rs).drop bs.length = serializeAll rs := List.drop_left _ _
      have hsub : bs.length + (decodeAll rs).length - bs.length = (decodeAll rs).length := by
        omega
      rw [htake, hdrop, hsub, ihr]
      rfl

theorem pbDecode_serializeAll (rs : List PBRecord) (h : ∀ r ∈ rs, GoodRec r) :
    Packbits.decode (serializeAll rs) (decodeAll rs).length = .ok (decodeAll rs) := by
  rw [Packbits.decode, pbDecodeGo_serializeAll rs h]
  simp

theorem rleDecode_length (data : List Nat) (size : Nat) :
    (Rle.decode data size).length = size := by
  match data with
  | [_] => simp [Rle.decode]
  | [] =>
    show ((Rle.decodeGo [] size) ++
      List.replicate (size - (Rle.decodeGo [] size).length) 0).length = size
    rw [rleDecodeGo_nil]
    simp
  | x :: y :: zs =>
    show ((Rle.decodeGo (x :: y :: zs) size) ++
      List.replicate (size - (Rle.decodeGo (x :: y :: zs) size).length) 0).length = size
    have := rleDecodeGo_length_le (x :: y :: zs) size
    simp only [List.length_append, List.length_replicate]
    omega

theorem rsDecode_ok_length (data : List Nat) (size : Nat) (w : List Nat)
    (h : RleStrict.decode data size = .ok w) : w.length ≤ size := by
  match data with
  | [d] =>
    simp only [RleStrict.decode] at h
    by_cases hd : d = 128
    · simp [hd] at h
      cases h
      simp
    · simp [hd] at h
  | [] =>
    rw [show RleStrict.decode [] size =
        (match RleStrict.decodeGo [] size with
          | .error e => .error e
          | .ok w => if size ≠ 0 ∧ w.length ≠ size then .error .valueError else .ok w) from rfl]
      at h
    cases hgo : RleStrict.decodeGo [] size with
    | error e => rw [hgo] at h; simp at h
    | ok w2 =>
      rw [hgo] at h
      have hle := rsDecodeGo_ok_length [] size w2 hgo
      by_cases hcond : size ≠ 0 ∧ w2.length ≠ size
      · simp [hcond] at h
      · simp [hcond] at h
        cases h
        exact hle
  | x :: y :: zs =>
    rw [show RleStrict.decode (x :: y :: zs) size =
        (match RleStrict.decodeGo (x :: y :: zs) size with
          | .error e => .error e
          | .ok w => if size ≠ 0 ∧ w.length ≠ size then .error .valueError else .ok w) from rfl]
      at h
    cases hgo : RleStrict.decodeGo (x :: y :: zs) size with
    | error e => rw [hgo] at h; simp at h
    | ok w2 =>
      rw [hgo] at h
      have hle := rsDecodeGo_ok_length (x :: y :: zs) size w2 hgo
      by_cases hcond : size ≠ 0 ∧ w2.length ≠ size
      · simp [hcond] at h
      · simp [hcond] at h
        cases h
        exact hle

theorem pbDecode_ok_length (data : List Nat) (size : Nat) (w : List Nat)
    (h : Packbits.decode data size = .ok w) : w.length = size := by
  rw [Packbits.decode] at h
  cases hgo : Packbits.decodeGo data size with
  | error e => rw [hgo] at h; simp at h
  | ok w2 =>
    rw [hgo] at h
    have hle := pbDecodeGo_ok_length data size w2 hgo
    by_cases hlt : w2.length < size
    · simp [hlt] at h
    · simp [hlt] at h
      cases h
      omega

/-! ## Properties of the accelerated encoder's scanning loops -/

theorem litLen_nil (n : Nat) : Rle.litLen [] n = n := by
  rw [Rle.litLen.eq_def]

theorem litLen_one (a n : Nat) : Rle.litLen [a] n = if 127 ≤ n then n else n + 1 := by
  rw [Rle.litLen.eq_def]

theorem litLen_cons (a b : Nat) (u : List Nat) (n : Nat) :
    Rle.litLen (a :: b :: u) n =
      if 127 ≤ n then n
      else if a = b then
        match u with
        | [] => n
        | c :: u2 =>
          if 125 ≤ n then n else if c = b then n else Rle.litLen (b :: c :: u2) (n + 1)
      else Rle.litLen (b :: u) (n + 1) := by
  rw [Rle.litLen.eq_def]

theorem runLen_le_length (s : List Nat) : Rle.runLen s ≤ s.length := by
  induction s with
  | nil => simp [Rle.runLen]
  | cons a t ih =>
    cases t with
    | nil => simp [Rle.runLen]
    | cons b u =>
      rw [Rle.runLen]
      split
      · simp only [List.length_cons] at *
        omega
      · simp

theorem runLen_pos (a : Nat) (t : List Nat) : 1 ≤ Rle.runLen (a :: t) := by
  cases t with
  | nil => simp [Rle.runLen]
  | cons b u => rw [Rle.runLen]; split <;> omega

theorem runLen_two (a : Nat) (t : List Nat) (h : t.head? = some a) :
    2 ≤ Rle.runLen (a :: t) := by
  cases t with
  | nil => simp at h
  | cons b u =>
    have hab : a = b := by
      simp only [List.head?, Option.some_inj] at h
      omega
    rw [Rle.runLen, if_pos hab]
    have := runLen_pos b u
    omega

theorem take_replicate_of_le_runLen (a : Nat) (t : List Nat) :
    ∀ c, c ≤ Rle.runLen (a :: t) → (a :: t).take c = List.replicate c a := by
  induction t generalizing a with
  | nil =>
    intro c hc
    simp only [Rle.runLen] at hc
    interval_cases c <;> simp [List.replicate]
  | cons b u ih =>
    intro c hc
    rw [Rle.runLen] at hc
    by_cases hab : a = b
    · rw [if_pos hab] at hc
      cases c with
      | zero => simp
      | succ c2 =>
        have hc2 : c2 ≤ Rle.runLen (b :: u) := by omega
        have := ih b c2 hc2
        subst hab
        simp only [List.take_succ_cons, List.replicate_succ]
        rw [this]
    · rw [if_neg hab] at hc
      interval_cases c <;> simp [List.replicate]

theorem litLen_ge (s : List Nat) : ∀ n, n ≤ Rle.litLen s n := by
  induction s with
  | nil => intro n; rw [litLen_nil]
  | cons a t ih =>
    intro n
    cases t with
    | nil => rw [litLen_one]; split <;> omega
    | cons b u =>
      rw [litLen_cons]
      split
      · omega
      · split
        · cases u with
          | nil => dsimp only; omega
          | cons c u2 =>
            dsimp only
            split
            · omega
            · split
              · omega
              · exact Nat.le_trans (by omega) (ih (n + 1))
        · exact Nat.le_trans (by omega) (ih (n + 1))

theorem litLen_le_127 (s : List Nat) : ∀ n, n ≤ 127 → Rle.litLen s n ≤ 127 := by
  induction s with
  | nil => intro n hn; rw [litLen_nil]; omega
  | cons a t ih =>
    intro n hn
    cases t with
    | nil => rw [litLen_one]; split <;> omega
    | cons b u =>
      rw [litLen_cons]
      split
      · omega
      · split
        · cases u with
          | nil => dsimp only; omega
          | cons c u2 =>
            dsimp only
            split
            · omega
            · split
              · omega
              · exact ih (n + 1) (by omega)
        · exact ih (n + 1) (by omega)

theorem litLen_le_add_length (s : List Nat) : ∀ n, Rle.litLen s n ≤ n + s.length := by
  induction s with
  | nil => intro n; rw [litLen_nil]; simp
  | cons a t ih =>
    intro n
    cases t with
    | nil => rw [litLen_one]; split <;> simp <;> omega
    | cons b u =>
      rw [litLen_cons]
      split
      · omega
      · split
        · cases u with
          | nil => dsimp only; simp
          | cons c u2 =>
            dsimp only
            split
            · simp
            · split
              · simp
              · have := ih (n + 1)
                simp only [List.length_cons] at *
                omega
        · have := ih (n + 1)
          simp only [List.length_cons] at *
          omega

theorem litLen_pos (a : Nat) (t : List Nat) (h : ¬ t.head? = some a) :
    1 ≤ Rle.litLen (a :: t) 0 := by
  cases t with
  | nil => rw [litLen_one]; split <;> omega
  | cons b u =>
    have hab : ¬ a = b := by
      intro hab
      exact h (by simp [hab])
    rw [litLen_cons]
    simp only [if_neg (by omega : ¬ (127:Nat) ≤ 0), if_neg hab]
    exact Nat.le_trans (by omega) (litLen_ge (b :: u) 1)

/-! ## The accelerated encoder emits a well-formed record stream -/

theorem encodeGo_nil : Rle.encodeGo [] = [] := by
  rw [Rle.encodeGo.eq_def]

theorem encodeGo_rep_eq (a : Nat) (t : List Nat) (h : t.head? = some a) :
    Rle.encodeGo (a :: t) =
      (257 - min 128 (Rle.runLen (a :: t))) :: a ::
        Rle.encodeGo (t.drop (min 128 (Rle.runLen (a :: t)) - 1)) := by
  rw [Rle.encodeGo.eq_def]
  simp [h]

theorem encodeGo_lit_eq (a : Nat) (t : List Nat) (h : ¬ t.head? = some a) :
    Rle.encodeGo (a :: t) =
      (Rle.litLen (a :: t) 0 - 1) ::
        ((a :: t).take (Rle.litLen (a :: t) 0) ++
          Rle.encodeGo (t.drop (Rle.litLen (a :: t) 0 - 1))) := by
  rw [Rle.encodeGo.eq_def]
  simp [h]

theorem encodeGo_records : ∀ (n : Nat) (s : List Nat), s.length ≤ n →
    ∃ rs, Rle.encodeGo s = serializeAll rs ∧ decodeAll rs = s ∧ ∀ r ∈ rs, GoodRec r := by
  intro n
  induction n with
  | zero =>
    intro s hs
    have : s = [] := List.length_eq_zero.mp (by omega)
    subst this
    exact ⟨[], by rw [encodeGo_nil]; rfl, rfl, by simp⟩
  | succ n ih =>
    intro s hs
    match s with
    | [] => exact ⟨[], by rw [encodeGo_nil]; rfl, rfl, by simp⟩
    | a :: t =>
      by_cases hrep : t.head? = some a
      · have hc2 : 2 ≤ min 128 (Rle.runLen (a :: t)) :=
          Nat.le_min.mpr ⟨by omega, runLen_two a t hrep⟩
        have hc128 : min 128 (Rle.runLen (a :: t)) ≤ 128 := Nat.min_le_left _ _
        have hcrun : min 128 (Rle.runLen (a :: t)) ≤ Rle.runLen (a :: t) := Nat.min_le_right _ _
        have hcle : min 128 (Rle.runLen (a :: t)) ≤ (a :: t).length :=
          Nat.le_trans hcrun (runLen_le_length _)
        have hdropeq : t.drop (min 128 (Rle.runLen (a :: t)) - 1) =
            (a :: t).drop (min 128 (Rle.runLen (a :: t))) := by
          have hsplit : min 128 (Rle.runLen (a :: t)) = (min 128 (Rle.runLen (a :: t)) - 1) + 1 := by
            omega
          conv_rhs => rw [hsplit]
          rw [List.drop_succ_cons]
        obtain ⟨rs2, he2, hd2, hg2⟩ := ih ((a :: t).drop (min 128 (Rle.runLen (a :: t))))
          (by simp only [List.length_drop, List.length_cons] at *; omega)
        refine ⟨PBRecord.rep (min 128 (Rle.runLen (a :: t))) a :: rs2, ?_, ?_, ?_⟩
        · rw [encodeGo_rep_eq a t hrep, hdropeq, he2]
          rfl
        · show List.replicate (min 128 (Rle.runLen (a :: t))) a ++ decodeAll rs2 = a :: t
          rw [hd2, ← take_replicate_of_le_runLen a t _ hcrun, List.take_append_drop]
        · intro r hr
          rcases List.mem_cons.mp hr with hr | hr
          · subst hr
            exact ⟨hc2, hc128⟩
          · exact hg2 r hr
      · have hl1 : 1 ≤ Rle.litLen (a :: t) 0 := litLen_pos a t hrep
        have hl127 : Rle.litLen (a :: t) 0 ≤ 127 := litLen_le_127 _ 0 (by omega)
        have hlle : Rle.litLen (a :: t) 0 ≤ (a :: t).length := by
          have := litLen_le_add_length (a :: t) 0
          omega
        have hdropeq : t.drop (Rle.litLen (a :: t) 0 - 1) =
            (a :: t).drop (Rle.litLen (a :: t) 0) := by
          have hsplit : Rle.litLen (a :: t) 0 = (Rle.litLen (a :: t) 0 - 1) + 1 := by omega
          conv_rhs => rw [hsplit]
          rw [List.drop_succ_cons]
        obtain ⟨rs2, he2, hd2, hg2⟩ := ih ((a :: t).drop (Rle.litLen (a :: t) 0))
          (by simp only [List.length_drop, List.length_cons] at *; omega)
        have htklen : ((a :: t).take (Rle.litLen (a :: t) 0)).length = Rle.litLen (a :: t) 0 := by
          simp only [List.length_take]
          omega
        refine ⟨PBRecord.lit ((a :: t).take (Rle.litLen (a :: t) 0)) :: rs2, ?_, ?_, ?_⟩
        · rw [encodeGo_lit_eq a t hrep, hdropeq, he2]
          show _ = (((a :: t).take (Rle.litLen (a :: t) 0)).length - 1) ::
            ((a :: t).take (Rle.litLen (a :: t) 0) ++ serializeAll rs2)
          rw [htklen]
        · show (a :: t).take (Rle.litLen (a :: t) 0) ++ decodeAll rs2 = a :: t
          rw [hd2, List.take_append_drop]
        · intro r hr
          rcases List.mem_cons.mp hr with hr | hr
          · subst hr
            refine ⟨?_, ?_⟩ <;> rw [htklen] <;> omega
          · exact hg2 r hr

theorem rleEncode_records (B : List Nat) :
    ∃ rs, Rle.encode B = serializeAll rs ∧ decodeAll rs = B ∧ ∀ r ∈ rs, GoodRec r := by
  match B with
  | [] => exact ⟨[], rfl, rfl, by simp⟩
  | [b] =>
    refine ⟨[PBRecord.lit [b]], ?_, rfl, ?_⟩
    · rfl
    · intro r hr
      rcases List.mem_cons.mp hr with hr | hr
      · subst hr
        exact ⟨by simp, by simp⟩
      · simp at hr
  | x :: y :: zs =>
    have : Rle.encode (x :: y :: zs) = Rle.encodeGo (x :: y :: zs) := rfl
    rw [this]
    exact encodeGo_records (x :: y :: zs).length _ (Nat.le_refl _)

/-! ## The state-machine encoder emits a well-formed record stream -/

theorem pbEncodeGo_nil_raw (cur : Nat) (buf : List Nat) :
    Packbits.encodeGo cur [] (.raw buf) = Packbits.finish_raw (buf ++ [cur]) := by
  rw [Packbits.encodeGo.eq_def]

theorem pbEncodeGo_nil_rle (cur c : Nat) :
    Packbits.encodeGo cur [] (.rle c) = Packbits.finish_rle (c + 1) cur := by
  rw [Packbits.encodeGo.eq_def]

theorem pbEncodeGo_cons_raw (cur next : Nat) (rest2 buf : List Nat) :
    Packbits.encodeGo cur (next :: rest2) (.raw buf) =
      if cur = next then
        Packbits.finish_raw buf ++ Packbits.encodeGo next rest2 (.rle 1)
      else if buf.length = 127 then
        Packbits.finish_raw buf ++ Packbits.encodeGo next rest2 (.raw [cur])
      else Packbits.encodeGo next rest2 (.raw (buf ++ [cur])) := by
  rw [Packbits.encodeGo.eq_def]

theorem pbEncodeGo_cons_rle (cur next : Nat) (rest2 : List Nat) (c : Nat) :
    Packbits.encodeGo cur (next :: rest2) (.rle c) =
      if cur = next then
        if c = 127 then
          Packbits.finish_rle 127 cur ++ Packbits.encodeGo next rest2 (.rle 1)
        else Packbits.encodeGo next rest2 (.rle (c + 1))
      else Packbits.finish_rle (c + 1) cur ++ Packbits.encodeGo next rest2 (.raw []) := by
  rw [Packbits.encodeGo.eq_def]

theorem pbEncodeGo_spec : ∀ (rest : List Nat) (cur : Nat),
    (∀ buf : List Nat, buf.length ≤ 127 →
      ∃ rs, Packbits.encodeGo cur rest (.raw buf) = serializeAll rs ∧
        decodeAll rs = buf ++ cur :: rest ∧ ∀ r ∈ rs, GoodRec r) ∧
    (∀ c : Nat, 1 ≤ c → c ≤ 127 →
      ∃ rs, Packbits.encodeGo cur rest (.rle c) = serializeAll rs ∧
        decodeAll rs = List.replicate c cur ++ cur :: rest ∧ ∀ r ∈ rs, GoodRec r) := by
  intro rest
  induction rest with
  | nil =>
    intro cur
    constructor
    · intro buf hbuf
      refine ⟨[PBRecord.lit (buf ++ [cur])], ?_, ?_, ?_⟩
      · rw [pbEncodeGo_nil_raw, Packbits.finish_raw, if_neg (by simp)]
        simp [serializeAll, recSerialize]
      · simp [decodeAll, recBytes]
      · intro r hr
        rcases List.mem_cons.mp hr with hr | hr
        · subst hr
          refine ⟨by simp, ?_⟩
          simp only [List.length_append, List.length_cons, List.length_nil]
          omega
        · simp at hr
    · intro c hc1 hc127
      refine ⟨[PBRecord.rep (c + 1) cur], ?_, ?_, ?_⟩
      · rw [pbEncodeGo_nil_rle, Packbits.finish_rle]
        simp only [serializeAll, recSerialize, List.append_nil]
        have : 256 - (c + 1 - 1) = 257 - (c + 1) := by omega
        rw [this]
      · simp only [decodeAll, recBytes, List.append_nil]
        rw [List.replicate_succ' c cur]
      · intro r hr
        rcases List.mem_cons.mp hr with hr | hr
        · subst hr
          exact ⟨by omega, by omega⟩
        · simp at hr
  | cons next rest2 ih =>
    intro cur
    constructor
    · intro buf hbuf
      by_cases heq : cur = next
      · obtain ⟨rs2, he2, hd2, hg2⟩ := (ih next).2 1 (by omega) (by omega)
        by_cases hbn : buf = []
        · subst hbn
          refine ⟨rs2, ?_, ?_, hg2⟩
          · rw [pbEncodeGo_cons_raw, if_pos heq, Packbits.finish_raw, if_pos rfl, he2]
            simp
          · rw [hd2, heq]
            simp
        · refine ⟨PBRecord.lit buf :: rs2, ?_, ?_, ?_⟩
          · rw [pbEncodeGo_cons_raw, if_pos heq, Packbits.finish_raw, if_neg hbn, he2]
            simp [serializeAll, recSerialize]
          · simp only [decodeAll, recBytes]
            rw [hd2, heq]
            simp
          · intro r hr
            rcases List.mem_cons.mp hr with hr | hr
            · subst hr
              refine ⟨?_, by omega⟩
              have : buf.length ≠ 0 := fun h0 => hbn (List.length_eq_zero.mp h0)
              omega
            · exact hg2 r hr
      · by_cases hmax : buf.length = 127
        · obtain ⟨rs2, he2, hd2, hg2⟩ := (ih next).1 [cur] (by simp)
          refine ⟨PBRecord.lit buf :: rs2, ?_, ?_, ?_⟩
          · have hbn : buf ≠ [] := by
              intro h0
              rw [h0] at hmax
              simp at hmax
            rw [pbEncodeGo_cons_raw, if_neg heq, if_pos hmax, Packbits.finish_raw,
              if_neg hbn, he2]
            simp [serializeAll, recSerialize]
          · simp only [decodeAll, recBytes]
            rw [hd2]
            simp
          · intro r hr
            rcases List.mem_cons.mp hr with hr | hr
            · subst hr
              exact ⟨by omega, by omega⟩
            · exact hg2 r hr
        · obtain ⟨rs2, he2, hd2, hg2⟩ := (ih next).1 (buf ++ [cur])
            (by simp only [List.length_append, List.length_cons, List.length_nil]; omega)
          refine ⟨rs2, ?_, ?_, hg2⟩
          · rw [pbEncodeGo_cons_raw, if_neg heq, if_neg hmax]
            exact he2
          · rw [hd2]
            simp
    · intro c hc1 hc127
      by_cases heq : cur = next
      · by_cases hcm : c = 127
        · obtain ⟨rs2, he2, hd2, hg2⟩ := (ih next).2 1 (by omega) (by omega)
          refine ⟨PBRecord.rep 127 cur :: rs2, ?_, ?_, ?_⟩
          · rw [pbEncodeGo_cons_rle, if_pos heq, if_pos hcm, Packbits.finish_rle, he2]
            simp [serializeAll, recSerialize]
          · simp only [decodeAll, recBytes]
            rw [hd2, heq, hcm]
            simp [List.replicate_succ']
          · intro r hr
            rcases List.mem_cons.mp hr with hr | hr
            · subst hr
              exact ⟨by omega, by omega⟩
            · exact hg2 r hr
        · obtain ⟨rs2, he2, hd2, hg2⟩ := (ih next).2 (c + 1) (by omega) (by omega)
          refine ⟨rs2, ?_, ?_, hg2⟩
          · rw [pbEncodeGo_cons_rle, if_pos heq, if_neg hcm]
            exact he2
          · rw [hd2, heq]
            rw [List.replicate_succ' c next]
            simp
      · obtain ⟨rs2, he2, hd2, hg2⟩ := (ih next).1 [] (by simp)
        refine ⟨PBRecord.rep (c + 1) cur :: rs2, ?_, ?_, ?_⟩
        · rw [pbEncodeGo_cons_rle, if_neg heq, Packbits.finish_rle, he2]
          simp only [serializeAll, recSerialize]
          have : 256 - (c + 1 - 1) = 257 - (c + 1) := by omega
          rw [this]
          try rfl
        · simp only [decodeAll, recBytes]
          rw [hd2]
          rw [List.replicate_succ' c cur]
          simp
        · intro r hr
          rcases List.mem_cons.mp hr with hr | hr
          · subst hr
            exact ⟨by omega, by omega⟩
          · exact hg2 r hr

theorem pbEncode_records (B : List Nat) :
    ∃ rs, Packbits.encode B = serializeAll rs ∧ decodeAll rs = B ∧ ∀ r ∈ rs, GoodRec r := by
  match B with
  | [] => exact ⟨[], rfl, rfl, by simp⟩
  | [b] =>
    refine ⟨[PBRecord.lit [b]], rfl, rfl, ?_⟩
    intro r hr
    rcases List.mem_cons.mp hr with hr | hr
    · subst hr
      exact ⟨by simp, by simp⟩
    · simp at hr
  | x :: y :: zs =>
    have hstep : Packbits.encode (x :: y :: zs) = Packbits.encodeGo x (y :: zs) (.raw []) := rfl
    rw [hstep]
    obtain ⟨rs, he, hd, hg⟩ := (pbEncodeGo_spec (y :: zs) x).1 [] (by simp)
    exact ⟨rs, he, by rw [hd]; simp, hg⟩

/-! ## Claim C1 -/

/-- C1: PackBits round-trip.  For every byte buffer `B` (including the empty
buffer, one-byte buffers, and buffers longer than 128 bytes of arbitrary
content), decoding the encoder's output with declared size `B.length`
returns exactly `B`; this holds for the current accelerated encoder
(`Rle.encode`) and for the portable state-machine encoder
(`Packbits.encode`), decoded by the tolerant decoder `Rle.decode`. -/
theorem C1_packbits_roundtrip (B : List Nat) :
    Rle.decode (Rle.encode B) B.length = B ∧
    Rle.decode (Packbits.encode B) B.length = B := by
  constructor
  · obtain ⟨rs, he, hd, hg⟩ := rleEncode_records B
    rw [he, ← hd]
    exact rleDecode_serializeAll rs hg
  · obtain ⟨rs, he, hd, hg⟩ := pbEncode_records B
    rw [he, ← hd]
    exact rleDecode_serializeAll rs hg

/-! ## Claim C3 -/

/-- C3 counterexample: the accelerated encoder and the portable
state-machine encoder do *not* produce byte-identical output: on the
buffer `[0, 1, 1, 2]` the accelerated encoder emits one literal record
`[3, 0, 1, 1, 2]` (two-byte repeats are absorbed into literals) while the
portable encoder emits `[0, 0, 255, 1, 0, 2]` (it switches to a repeat
record for every adjacent equal pair). -/
theorem C3_counterexample :
    Rle.encode [0, 1, 1, 2] = [3, 0, 1, 1, 2] ∧
    Packbits.encode [0, 1, 1, 2] = [0, 0, 255, 1, 0, 2] ∧
    ¬ Rle.encode [0, 1, 1, 2] = Packbits.encode [0, 1, 1, 2] := by
  have h1 : Rle.encode [0, 1, 1, 2] = [3, 0, 1, 1, 2] := by
    show Rle.encodeGo [0, 1, 1, 2] = [3, 0, 1, 1, 2]
    simp [encodeGo_rep_eq, encodeGo_lit_eq, encodeGo_nil, litLen_cons, litLen_one, litLen_nil,
      Rle.runLen]
  have h2 : Packbits.encode [0, 1, 1, 2] = [0, 0, 255, 1, 0, 2] := by
    show Packbits.encodeGo 0 [1, 1, 2] (.raw []) = [0, 0, 255, 1, 0, 2]
    simp [pbEncodeGo_cons_raw, pbEncodeGo_cons_rle, pbEncodeGo_nil_raw, pbEncodeGo_nil_rle,
      Packbits.finish_raw, Packbits.finish_rle]
  refine ⟨h1, h2, ?_⟩
  rw [h1, h2]
  simp

/-- C3 amended: the two encoders are not byte-identical, but they are
decode-equivalent: for every input buffer the accelerated encoder's output
and the portable encoder's output decode (tolerantly, with declared size
`B.length`) to the same bytes, namely `B` itself. -/
theorem C3_amended (B : List Nat) :
    Rle.decode (Rle.encode B) B.length = Rle.decode (Packbits.encode B) B.length ∧
    Rle.decode (Rle.encode B) B.length = B := by
  obtain ⟨rs1, he1, hd1, hg1⟩ := rleEncode_records B
  obtain ⟨rs2, he2, hd2, hg2⟩ := pbEncode_records B
  have r1 : Rle.decode (Rle.encode B) B.length = B := by
    rw [he1, ← hd1]
    exact rleDecode_serializeAll rs1 hg1
  have r2 : Rle.decode (Packbits.encode B) B.length = B := by
    rw [he2, ← hd2]
    exact rleDecode_serializeAll rs2 hg2
  exact ⟨by rw [r1, r2], r1⟩

/-! ## Claim C2 -/

/-- C2 counterexample: the claim says the strict decoders raise a decode
error (`ValueError`) on overrun *or on truncated input*; but the strict
decoder of the earlier `_rle.pyx`, on an input ending right after a repeat
header (here `[128, 200]`, a no-op then the bare repeat header `200` with
output budget 100), performs an out-of-bounds read of the byte to repeat
(an `IndexError` from the bounds-checked memoryview), not a
`ValueError`. -/
theorem C2_counterexample :
    RleStrict.decode [128, 200] 100 = .error .indexError ∧
    (Except.error DecodeErr.indexError : Except DecodeErr (List Nat)) ≠
      .error .valueError := by
  constructor
  · show (match RleStrict.decodeGo [128, 200] 100 with
      | .error e => Except.error e
      | .ok w => if 100 ≠ 0 ∧ w.length ≠ 100 then .error .valueError else .ok w) = _
    rw [rsDecodeGo_nop, rsDecodeGo_rep_truncated 200 100 (by omega) (by omega)]
  · simp

/-- C2 amended: no PackBits decoder ever writes past the declared output
size.  The tolerant decoder is a total function returning exactly the
declared size (clipping and zero-filling as needed, never raising).  The
strict decoders raise `ValueError` the moment a repeat or literal run
would overrun the remaining output budget, and on truncated literal input;
the part_019 strict decoder also raises `ValueError` on a truncated repeat
(a bare trailing repeat header), while the earlier strict `_rle.pyx`
decoder instead hits an out-of-bounds read (`IndexError`) there. -/
theorem C2_amended :
    (∀ (data : List Nat) (size : Nat), (Rle.decode data size).length = size) ∧
    (∀ (data : List Nat) (size : Nat) (w : List Nat),
      RleStrict.decode data size = .ok w → w.length ≤ size) ∧
    (∀ (data : List Nat) (size : Nat) (w : List Nat),
      Packbits.decode data size = .ok w → w.length = size) ∧
    (∀ (bit : Nat) (rest : List Nat) (rem : Nat), 128 < bit → rem < 257 - bit →
      RleStrict.decodeGo (bit :: rest) rem = .error .valueError ∧
      Packbits.decodeGo (bit :: rest) rem = .error .valueError) ∧
    (∀ (bit : Nat) (rest : List Nat) (rem : Nat), bit < 128 → rem < bit + 1 →
      RleStrict.decodeGo (bit :: rest) rem = .error .valueError ∧
      Packbits.decodeGo (bit :: rest) rem = .error .valueError) ∧
    (∀ (bit : Nat) (rest : List Nat) (rem : Nat), bit < 128 → rest.length < bit + 1 →
      RleStrict.decodeGo (bit :: rest) rem = .error .valueError ∧
      Packbits.decodeGo (bit :: rest) rem = .error .valueError) ∧
    (∀ (bit rem : Nat), 128 < bit → Packbits.decodeGo [bit] rem = .error .valueError) ∧
    (∀ (bit rem : Nat), 128 < bit → 257 - bit ≤ rem →
      RleStrict.decodeGo [bit] rem = .error .indexError) := by
  refine ⟨rleDecode_length, rsDecode_ok_length, pbDecode_ok_length, ?_, ?_, ?_, ?_, ?_⟩
  · intro bit rest rem h1 h2
    exact ⟨rsDecodeGo_rep_overrun bit rest rem h1 h2,
      pbDecodeGo_rep_err bit rest rem h1 (Or.inr h2)⟩
  · intro bit rest rem h1 h2
    exact ⟨rsDecodeGo_lit_err bit rest rem h1 (Or.inr h2),
      pbDecodeGo_lit_err bit rest rem (by omega) (Or.inr h2)⟩
  · intro bit rest rem h1 h2
    exact ⟨rsDecodeGo_lit_err bit rest rem h1 (Or.inl h2),
      pbDecodeGo_lit_err bit rest rem (by omega) (Or.inl h2)⟩
  · intro bit rem h1
    exact pbDecodeGo_rep_err bit [] rem h1 (Or.inl rfl)
  · intro bit rem h1 h2
    exact rsDecodeGo_rep_truncated bit rem h1 h2

/-- C2 witness: the amended statement instantiated at concrete inputs — a
tolerant decode of an overrunning repeat still returns exactly the
declared 5 bytes; the strict decoders reject the overrunning repeat
`[254, 7]` into a 2-byte budget with `ValueError`; the part_019 decoder
rejects the bare repeat header `[200]` with `ValueError` while the earlier
strict decoder reports `IndexError` there. -/
theorem C2_witness :
    (Rle.decode [129, 7] 5).length = 5 ∧
    RleStrict.decodeGo [254, 7] 2 = .error .valueError ∧
    Packbits.decodeGo [254, 7] 2 = .error .valueError ∧
    Packbits.decodeGo [200] 60 = .error .valueError ∧
    RleStrict.decodeGo [200] 60 = .error .indexError :=
  ⟨C2_amended.1 [129, 7] 5,
    (C2_amended.2.2.2.1 254 [7] 2 (by omega) (by omega)).1,
    (C2_amended.2.2.2.1 254 [7] 2 (by omega) (by omega)).2,
    C2_amended.2.2.2.2.2.2.1 200 60 (by omega),
    C2_amended.2.2.2.2.2.2.2 200 60 (by omega) (by omega)⟩

/-! ## Claim C4 -/

/-- C4: PackBits record semantics.  A well-formed stream is a serialization
of records: a literal record has header `v ∈ [0,127]` followed by `v + 1`
bytes, contributing those bytes verbatim; header `128` is a no-op
contributing nothing; a repeat record has header `v ∈ [129,255]` followed
by one byte, contributing that byte `257 - v` times (between 2 and 128
repetitions).  Decoding a well-formed stream at its exact total size
yields the concatenation of the records' contributions, for both the
strict part_019 decoder and the tolerant decoder; and the decoder's
per-record steps follow exactly the three header cases. -/
theorem C4_record_semantics :
    (∀ rs : List PBRecord, (∀ r ∈ rs, GoodRec r) →
      Packbits.decode (serializeAll rs) (decodeAll rs).length = .ok (decodeAll rs) ∧
      Rle.decode (serializeAll rs) (decodeAll rs).length = decodeAll rs) ∧
    (∀ (v : Nat) (rest : List Nat) (rem : Nat), v ≤ 127 → v + 1 ≤ rest.length →
      v + 1 ≤ rem →
      Packbits.decodeGo (v :: rest) rem =
        (fun w => rest.take (v + 1) ++ w) <$>
          Packbits.decodeGo (rest.drop (v + 1)) (rem - (v + 1))) ∧
    (∀ (rest : List Nat) (rem : Nat),
      Packbits.decodeGo (128 :: rest) rem = Packbits.decodeGo rest rem) ∧
    (∀ (v b : Nat) (rest : List Nat) (rem : Nat), 129 ≤ v → v ≤ 255 → 257 - v ≤ rem →
      (Packbits.decodeGo (v :: b :: rest) rem =
        (fun w => List.replicate (257 - v) b ++ w) <$>
          Packbits.decodeGo rest (rem - (257 - v))) ∧
      2 ≤ 257 - v ∧ 257 - v ≤ 128) := by
  refine ⟨?_, ?_, pbDecodeGo_nop, ?_⟩
  · intro rs hg
    exact ⟨pbDecode_serializeAll rs hg, rleDecode_serializeAll rs hg⟩
  · intro v rest rem h1 h2 h3
    exact pbDecodeGo_lit v rest rem h1 h2 h3
  · intro v b rest rem h1 h2 h3
    exact ⟨pbDecodeGo_rep v b rest rem (by omega) h3, by omega, by omega⟩

/-- C4 witness: the record stream `[literal [10,20], no-op, repeat 3 × 7]`
serializes to `[1, 10, 20, 128, 254, 7]` and both decoders reproduce the
5-byte contribution `[10, 20, 7, 7, 7]` at the declared size 5. -/
theorem C4_witness :
    Packbits.decode [1, 10, 20, 128, 254, 7] 5 = .ok [10, 20, 7, 7, 7] ∧
    Rle.decode [1, 10, 20, 128, 254, 7] 5 = [10, 20, 7, 7, 7] := by
  have h := C4_record_semantics.1 [PBRecord.lit [10, 20], PBRecord.nop, PBRecord.rep 3 7]
    (by intro r hr; fin_cases hr <;> simp [GoodRec])
  simpa [serializeAll, recSerialize, decodeAll, recBytes] using h

/-! ## Delta decoding: per-row running sums -/

theorem getD_set_ne2 (l : List Nat) (i j v : Nat) (h : i ≠ j) :
    (l.set i v).getD j 0 = l.getD j 0 := by
  simp [List.getD, List.getElem?_set_ne h]

theorem getD_set_self2 (l : List Nat) (i v : Nat) (h : i < l.length) :
    (l.set i v).getD i 0 = v := by
  simp [List.getD, List.getElem?_set_self, h]

theorem getD_lt_of_forall (m : Nat) (arr : List Nat) (h0 : 0 < m)
    (hv : ∀ a ∈ arr, a < m) (i : Nat) : arr.getD i 0 < m := by
  by_cases hi : i < arr.length
  · rw [List.getD_eq_getElem arr 0 hi]
    exact hv _ (List.getElem_mem hi)
  · rw [List.getD_eq_default arr 0 (by omega)]
    exact h0

theorem deltaRowAux (m offset : Nat) (h0 : 0 < m) :
    ∀ (k : Nat) (arr : List Nat), offset + k < arr.length → arr.getD offset 0 < m →
      ((List.range k).foldl (fun a x => Compression.deltaStep m (offset + x) a) arr).length =
          arr.length ∧
      (∀ j, j ≤ offset ∨ offset + k < j →
        ((List.range k).foldl (fun a x => Compression.deltaStep m (offset + x) a) arr).getD j 0 =
          arr.getD j 0) ∧
      (∀ x, x ≤ k →
        ((List.range k).foldl (fun a x => Compression.deltaStep m (offset + x) a) arr).getD
            (offset + x) 0 =
          (((List.range (x + 1)).map fun t => arr.getD (offset + t) 0).sum) % m) := by
  intro k
  induction k with
  | zero =>
    intro arr hlen hv0
    refine ⟨rfl, fun j hj => rfl, ?_⟩
    intro x hx
    have hx0 : x = 0 := by omega
    subst hx0
    show arr.getD (offset + 0) 0 = (((List.range 1).map fun t => arr.getD (offset + t) 0).sum) % m
    have hsum1 : ((List.range 1).map fun t => arr.getD (offset + t) 0).sum =
        arr.getD (offset + 0) 0 := by
      rw [List.range_succ, List.range_zero]
      simp
    rw [hsum1, Nat.mod_eq_of_lt (by simpa using hv0)]
  | succ k ih =>
    intro arr hlen hv0
    obtain ⟨ihL, ihU, ihV⟩ := ih arr (by omega) hv0
    have hfold : (List.range (k + 1)).foldl
        (fun a x => Compression.deltaStep m (offset + x) a) arr =
        Compression.deltaStep m (offset + k)
          ((List.range k).foldl (fun a x => Compression.deltaStep m (offset + x) a) arr) := by
      rw [List.range_succ, List.foldl_append]
      rfl
    rw [hfold]
    rw [Compression.deltaStep]
    refine ⟨?_, ?_, ?_⟩
    · rw [List.length_set, ihL]
    · intro j hj
      rw [getD_set_ne2 _ _ _ _ (by omega)]
      exact ihU j (by omega)
    · intro x hx
      by_cases hxk : x ≤ k
      · rw [getD_set_ne2 _ _ _ _ (by omega)]
        exact ihV x hxk
      · have hx1 : x = k + 1 := by omega
        subst hx1
        have hoff : offset + (k + 1) = offset + k + 1 := by omega
        rw [hoff, getD_set_self2 _ _ _ (by rw [ihL]; omega)]
        have hup : ((List.range k).foldl (fun a x => Compression.deltaStep m (offset + x) a)
            arr).getD (offset + k + 1) 0 = arr.getD (offset + k + 1) 0 :=
          ihU (offset + k + 1) (by omega)
        have hval : ((List.range k).foldl (fun a x => Compression.deltaStep m (offset + x) a)
            arr).getD (offset + k) 0 =
            (((List.range (k + 1)).map fun t => arr.getD (offset + t) 0).sum) % m :=
          ihV k (Nat.le_refl k)
        rw [hup, hval, Nat.add_mod_mod]
        have hsum : ((List.range (k + 1 + 1)).map fun t => arr.getD (offset + t) 0).sum =
            ((List.range (k + 1)).map fun t => arr.getD (offset + t) 0).sum +
              arr.getD (offset + (k + 1)) 0 := by
          rw [List.range_succ, List.map_append, List.sum_append]
          simp
        rw [hsum]
        have : arr.getD (offset + k + 1) 0 = arr.getD (offset + (k + 1)) 0 := by rw [← hoff]
        rw [this, Nat.add_comm]

theorem deltaPlaneAux (m w : Nat) (h0 : 0 < m) :
    ∀ (k : Nat) (arr : List Nat), (∀ a ∈ arr, a < m) → k * w ≤ arr.length →
      ((List.range k).foldl (fun a y => Compression.deltaRow m w (y * w) a) arr).length =
          arr.length ∧
      (∀ j, k * w ≤ j →
        ((List.range k).foldl (fun a y => Compression.deltaRow m w (y * w) a) arr).getD j 0 =
          arr.getD j 0) ∧
      (∀ y x, y < k → x < w →
        ((List.range k).foldl (fun a y => Compression.deltaRow m w (y * w) a) arr).getD
            (y * w + x) 0 =
          Compression.rowSum arr w y x % m) := by
  intro k
  induction k with
  | zero =>
    intro arr hv hlen
    exact ⟨rfl, fun j hj => rfl, fun y x hy hx => by omega⟩
  | succ k ih =>
    intro arr hv hlen
    obtain ⟨ihL, ihU, ihV⟩ := ih arr hv
      (Nat.le_trans (Nat.mul_le_mul_right w (Nat.le_succ k)) hlen)
    have hfold : (List.range (k + 1)).foldl
        (fun a y => Compression.deltaRow m w (y * w) a) arr =
        Compression.deltaRow m w (k * w)
          ((List.range k).foldl (fun a y => Compression.deltaRow m w (y * w) a) arr) := by
      rw [List.range_succ, List.foldl_append]
      rfl
    rw [hfold]
    by_cases hw : w = 0
    · subst hw
      rw [Compression.deltaRow]
      simp only [Nat.zero_sub, List.range_zero, List.foldl_nil]
      refine ⟨ihL, ?_, ?_⟩
      · intro j hj
        exact ihU j (by omega)
      · intro y x hy hx
        omega
    · have hw1 : 1 ≤ w := by omega
      have hksucc : (k + 1) * w = k * w + w := by ring
      have hrow := deltaRowAux m (k * w) h0 (w - 1)
        ((List.range k).foldl (fun a y => Compression.deltaRow m w (y * w) a) arr)
        (by rw [ihL]; omega)
        (by
          rw [ihU (k * w) (Nat.le_refl _)]
          exact getD_lt_of_forall m arr h0 hv (k * w))
      obtain ⟨rL, rU, rV⟩ := hrow
      rw [Compression.deltaRow]
      refine ⟨?_, ?_, ?_⟩
      · rw [rL, ihL]
      · intro j hj
        rw [rU j (Or.inr (by omega))]
        exact ihU j (by omega)
      · intro y x hy hx
        by_cases hyk : y < k
        · have hidx : y * w + x ≤ k * w := by
            have h1 : y * w + x < (y + 1) * w := by
              have : (y + 1) * w = y * w + w := by ring
              omega
            have h2 : (y + 1) * w ≤ k * w := Nat.mul_le_mul_right w (by omega)
            omega
          by_cases hcase : y * w + x ≤ k * w
          · rw [rU (y * w + x) (Or.inl hcase)]
            exact ihV y x hyk hx
          · omega
        · have hyk2 : y = k := by omega
          subst hyk2
          have hrv := rV x (by omega)
          rw [hrv]
          have hcongr : ((List.range (x + 1)).map fun t =>
              ((List.range y).foldl (fun a y2 => Compression.deltaRow m w (y2 * w) a)
                arr).getD (y * w + t) 0) =
              ((List.range (x + 1)).map fun t => arr.getD (y * w + t) 0) := by
            apply List.map_congr_left
            intro t ht
            exact ihU (y * w + t) (by omega)
          rw [hcongr]
          rfl

theorem getD_map_byteswap (l : List Nat) (i : Nat) (hi : i < l.length) :
    (l.map Compression.byteswap16).getD i 0 = Compression.byteswap16 (l.getD i 0) := by
  rw [List.getD_eq_getElem _ _ (by simpa using hi), List.getD_eq_getElem _ _ hi]
  simp

theorem pixel_index_lt (w h y x : Nat) (hy : y < h) (hx : x < w) : y * w + x < w * h := by
  have h1 : y * w + x < (y + 1) * w := by
    have : (y + 1) * w = y * w + w := by ring
    omega
  have h2 : (y + 1) * w ≤ h * w := Nat.mul_le_mul_right w (by omega)
  have h3 : h * w = w * h := Nat.mul_comm h w
  omega

/-! ## Claim C5 -/

/-- C5: `_delta_decode` with `mod = 256` replaces each row of the flat
`w × h` byte buffer independently by its running prefix sums in unsigned
8-bit wraparound arithmetic (`sample[x]` becomes the sum of the row's
input samples `0..x` modulo 256, with no state carried across row
boundaries — `rowSum` only ranges over row `y`); with `mod = 256*256` the
same per-row running sum is performed on 16-bit words and the whole buffer
is then byte-swapped word-wise. -/
theorem C5_delta_decode :
    (∀ (arr : List Nat) (w h y x : Nat), arr.length = w * h → (∀ a ∈ arr, a < 256) →
      y < h → x < w →
      Compression._delta_decode arr 256 w h = some (Compression.deltaPlane 256 w h arr) ∧
      (Compression.deltaPlane 256 w h arr).getD (y * w + x) 0 =
        Compression.rowSum arr w y x % 256) ∧
    (∀ (arr : List Nat) (w h y x : Nat), arr.length = w * h → (∀ a ∈ arr, a < 65536) →
      y < h → x < w →
      Compression._delta_decode arr 65536 w h =
        some ((Compression.deltaPlane 65536 w h arr).map Compression.byteswap16) ∧
      ((Compression.deltaPlane 65536 w h arr).map Compression.byteswap16).getD (y * w + x) 0 =
        Compression.byteswap16 (Compression.rowSum arr w y x % 65536)) := by
  constructor
  · intro arr w h y x hlen hv hy hx
    have hplane := deltaPlaneAux 256 w (by omega) h arr hv
      (by rw [hlen, Nat.mul_comm])
    obtain ⟨pL, pU, pV⟩ := hplane
    constructor
    · rw [Compression._delta_decode]
      simp
    · exact pV y x hy hx
  · intro arr w h y x hlen hv hy hx
    have hplane := deltaPlaneAux 65536 w (by omega) h arr hv
      (by rw [hlen, Nat.mul_comm])
    obtain ⟨pL, pU, pV⟩ := hplane
    constructor
    · rw [Compression._delta_decode]
      norm_num
    · have hidx : y * w + x < (Compression.deltaPlane 65536 w h arr).length := by
        have hL : (Compression.deltaPlane 65536 w h arr).length = arr.length := pL
        rw [hL, hlen]
        exact pixel_index_lt w h y x hy hx
      rw [getD_map_byteswap _ _ hidx]
      rw [show (Compression.deltaPlane 65536 w h arr).getD (y * w + x) 0 =
        Compression.rowSum arr w y x % 65536 from pV y x hy hx]

/-- C5 witness: the 8-bit delta decode of the 3×2 buffer
`[1, 2, 3, 250, 10, 20]` gives row sums `[1, 3, 6]` and `[250, 4, 24]`
(the second row wraps modulo 256 with no carry from the first row), and
the 16-bit path additionally byte-swaps each word. -/
theorem C5_witness :
    Compression._delta_decode [1, 2, 3, 250, 10, 20] 256 3 2 =
      some (Compression.deltaPlane 256 3 2 [1, 2, 3, 250, 10, 20]) ∧
    (Compression.deltaPlane 256 3 2 [1, 2, 3, 250, 10, 20]).getD (1 * 3 + 2) 0 =
      Compression.rowSum [1, 2, 3, 250, 10, 20] 3 1 2 % 256 ∧
    Compression._delta_decode [1, 513, 2, 7, 10, 100] 65536 3 2 =
      some ((Compression.deltaPlane 65536 3 2 [1, 513, 2, 7, 10, 100]).map
        Compression.byteswap16) ∧
    ((Compression.deltaPlane 65536 3 2 [1, 513, 2, 7, 10, 100]).map
        Compression.byteswap16).getD (0 * 3 + 1) 0 =
      Compression.byteswap16 (Compression.rowSum [1, 513, 2, 7, 10, 100] 3 0 1 % 65536) := by
  have h1 := C5_delta_decode.1 [1, 2, 3, 250, 10, 20] 3 2 1 2 (by decide) (by decide)
    (by decide) (by decide)
  have h2 := C5_delta_decode.2 [1, 513, 2, 7, 10, 100] 3 2 0 1 (by decide) (by decide)
    (by decide) (by decide)
  exact ⟨h1.1, h1.2, h2.1, h2.2⟩

/-! ## Per-pixel behavior of the shared blend skeleton -/

theorem getD_cons_succ2 (a : Nat) (l : List Nat) (n : Nat) :
    (a :: l).getD (n + 1) 0 = l.getD n 0 := by
  simp [List.getD]

theorem blendPixels_cons (core : (Nat × Nat × Nat) → (Nat × Nat × Nat) → (Nat × Nat × Nat))
    (b0 b1 b2 b3 a0 a1 a2 a3 : Nat) (t1 t2 : List Nat) :
    Blend.blendPixels core (b0 :: b1 :: b2 :: b3 :: t1) (a0 :: a1 :: a2 :: a3 :: t2) =
      if a3 = 0 then b0 :: b1 :: b2 :: b3 :: Blend.blendPixels core t1 t2
      else if b3 = 0 then a0 :: a1 :: a2 :: a3 :: Blend.blendPixels core t1 t2
      else
        (core (b0, b1, b2) (a0, a1, a2)).1 % 256 ::
          (core (b0, b1, b2) (a0, a1, a2)).2.1 % 256 ::
            (core (b0, b1, b2) (a0, a1, a2)).2.2 % 256 ::
              a3 :: Blend.blendPixels core t1 t2 := rfl

theorem blendPixels_chunk (core : (Nat × Nat × Nat) → (Nat × Nat × Nat) → (Nat × Nat × Nat))
    (i : Nat) : ∀ (d1 d2 : List Nat), d1.length = d2.length → 4 * i + 4 ≤ d1.length →
    (d2.getD (4 * i + 3) 0 = 0 →
      ((Blend.blendPixels core d1 d2).drop (4 * i)).take 4 = (d1.drop (4 * i)).take 4) ∧
    (d2.getD (4 * i + 3) 0 ≠ 0 → d1.getD (4 * i + 3) 0 = 0 →
      ((Blend.blendPixels core d1 d2).drop (4 * i)).take 4 = (d2.drop (4 * i)).take 4) ∧
    (d2.getD (4 * i + 3) 0 ≠ 0 → d1.getD (4 * i + 3) 0 ≠ 0 →
      ((Blend.blendPixels core d1 d2).drop (4 * i)).take 4 =
        [(core (d1.getD (4 * i) 0, d1.getD (4 * i + 1) 0, d1.getD (4 * i + 2) 0)
            (d2.getD (4 * i) 0, d2.getD (4 * i + 1) 0, d2.getD (4 * i + 2) 0)).1 % 256,
          (core (d1.getD (4 * i) 0, d1.getD (4 * i + 1) 0, d1.getD (4 * i + 2) 0)
            (d2.getD (4 * i) 0, d2.getD (4 * i + 1) 0, d2.getD (4 * i + 2) 0)).2.1 % 256,
          (core (d1.getD (4 * i) 0, d1.getD (4 * i + 1) 0, d1.getD (4 * i + 2) 0)
            (d2.getD (4 * i) 0, d2.getD (4 * i + 1) 0, d2.getD (4 * i + 2) 0)).2.2 % 256,
          d2.getD (4 * i + 3) 0]) := by
  induction i with
  | zero =>
    intro d1 d2 hlen hi
    rcases d1 with _ | ⟨b0, _ | ⟨b1, _ | ⟨b2, _ | ⟨b3, t1⟩⟩⟩⟩ <;> simp at hi
    rcases d2 with _ | ⟨a0, _ | ⟨a1, _ | ⟨a2, _ | ⟨a3, t2⟩⟩⟩⟩ <;> simp at hlen
    rw [blendPixels_cons]
    refine ⟨?_, ?_, ?_⟩
    · intro ha3
      have : a3 = 0 := by simpa [List.getD] using ha3
      simp [this]
    · intro ha3 hb3
      have h2 : a3 ≠ 0 := by simpa [List.getD] using ha3
      have h1 : b3 = 0 := by simpa [List.getD] using hb3
      simp [h1, h2]
    · intro ha3 hb3
      have h2 : a3 ≠ 0 := by simpa [List.getD] using ha3
      have h1 : b3 ≠ 0 := by simpa [List.getD] using hb3
      simp [h1, h2, List.getD]
  | succ i ih =>
    intro d1 d2 hlen hi
    rcases d1 with _ | ⟨b0, _ | ⟨b1, _ | ⟨b2, _ | ⟨b3, t1⟩⟩⟩⟩ <;> simp at hi
    rcases d2 with _ | ⟨a0, _ | ⟨a1, _ | ⟨a2, _ | ⟨a3, t2⟩⟩⟩⟩ <;> simp at hlen
    have hlen2 : t1.length = t2.length := by simpa using hlen
    have hi2 : 4 * i + 4 ≤ t1.length := by omega
    have hsplit : ∀ n, 4 * (i + 1) + n = (4 * i + n) + 1 + 1 + 1 + 1 := by intro n; ring
    have hdrop4 : ∀ (c0 c1 c2 c3 : Nat) (rest : List Nat),
        (c0 :: c1 :: c2 :: c3 :: rest).drop (4 * (i + 1)) = rest.drop (4 * i) := by
      intro c0 c1 c2 c3 rest
      rw [show 4 * (i + 1) = 4 * i + 1 + 1 + 1 + 1 from by ring]
      simp [List.drop_succ_cons]
    have hgetD4 : ∀ (c0 c1 c2 c3 : Nat) (rest : List Nat) (n : Nat),
        (c0 :: c1 :: c2 :: c3 :: rest).getD (4 * (i + 1) + n) 0 = rest.getD (4 * i + n) 0 := by
      intro c0 c1 c2 c3 rest n
      rw [hsplit n, getD_cons_succ2, getD_cons_succ2, getD_cons_succ2, getD_cons_succ2]
    obtain ⟨e0, e1, e2, e3, hbp⟩ : ∃ e0 e1 e2 e3,
        Blend.blendPixels core (b0 :: b1 :: b2 :: b3 :: t1) (a0 :: a1 :: a2 :: a3 :: t2) =
          e0 :: e1 :: e2 :: e3 :: Blend.blendPixels core t1 t2 := by
      rw [blendPixels_cons]
      split_ifs <;> exact ⟨_, _, _, _, rfl⟩
    obtain ⟨ih1, ih2, ih3⟩ := ih t1 t2 hlen2 hi2
    rw [hbp]
    simp only [hdrop4, hgetD4]
    exact ⟨ih1, ih2, ih3⟩

/-! ## Claim C6 -/

/-- C6: dissolve determinism.  `dissolve` calls `srand(314159265)` before
its loop, so whatever generator state was current before the invocation
(`s1` vs `s2`) is irrelevant: two independent invocations on the same
inputs produce identical output, for any generator model
(`next`/`srand`).  Per pixel, one draw `rand() % 255 + 1` is consumed in
scan order; if the source alpha is below the draw the backdrop pixel is
kept byte-for-byte, otherwise the source RGB is taken with alpha forced to
255. -/
theorem C6_dissolve_deterministic :
    (∀ (S : Type) (next : S → Nat × S) (srand : Nat → S) (s1 s2 : S)
      (imdata1 imdata2 : List Nat),
      Blend.dissolve next srand s1 imdata1 imdata2 =
        Blend.dissolve next srand s2 imdata1 imdata2) ∧
    (∀ (S : Type) (next : S → Nat × S) (s : S) (b0 b1 b2 b3 a0 a1 a2 a3 : Nat)
      (t1 t2 : List Nat),
      (a3 < (next s).1 % 255 + 1 →
        Blend.dissolveGo next s (b0 :: b1 :: b2 :: b3 :: t1) (a0 :: a1 :: a2 :: a3 :: t2) =
          b0 :: b1 :: b2 :: b3 :: Blend.dissolveGo next (next s).2 t1 t2) ∧
      (¬ a3 < (next s).1 % 255 + 1 →
        Blend.dissolveGo next s (b0 :: b1 :: b2 :: b3 :: t1) (a0 :: a1 :: a2 :: a3 :: t2) =
          a0 :: a1 :: a2 :: 255 :: Blend.dissolveGo next (next s).2 t1 t2)) := by
  constructor
  · intro S next srand s1 s2 imdata1 imdata2
    rfl
  · intro S next s b0 b1 b2 b3 a0 a1 a2 a3 t1 t2
    constructor
    · intro h
      show (if a3 < (next s).1 % 255 + 1 then
          b0 :: b1 :: b2 :: b3 :: Blend.dissolveGo next (next s).2 t1 t2
        else a0 :: a1 :: a2 :: 255 :: Blend.dissolveGo next (next s).2 t1 t2) = _
      rw [if_pos h]
    · intro h
      show (if a3 < (next s).1 % 255 + 1 then
          b0 :: b1 :: b2 :: b3 :: Blend.dissolveGo next (next s).2 t1 t2
        else a0 :: a1 :: a2 :: 255 :: Blend.dissolveGo next (next s).2 t1 t2) = _
      rw [if_neg h]

/-- C6 witness: with a toy linear generator, two dissolve invocations
starting from the distinct prior states 0 and 999 agree, and one concrete
pixel step keeps the backdrop because the source alpha 8 is below the
draw. -/
theorem C6_witness :
    Blend.dissolve (fun s : Nat => (s + 7, s + 7)) (fun n => n % 1000) 0
        [1, 2, 3, 4] [5, 6, 7, 8] =
      Blend.dissolve (fun s : Nat => (s + 7, s + 7)) (fun n => n % 1000) 999
        [1, 2, 3, 4] [5, 6, 7, 8] ∧
    Blend.dissolveGo (fun s : Nat => (s + 7, s + 7)) 265 [1, 2, 3, 4] [5, 6, 7, 8] =
      [1, 2, 3, 4] := by
  constructor
  · exact C6_dissolve_deterministic.1 Nat (fun s => (s + 7, s + 7)) (fun n => n % 1000)
      0 999 [1, 2, 3, 4] [5, 6, 7, 8]
  · have h := (C6_dissolve_deterministic.2 Nat (fun s => (s + 7, s + 7)) 265
      1 2 3 4 5 6 7 8 [] []).1 (by norm_num)
    simpa [Blend.dissolveGo] using h

/-! ## Claim C7 -/

/-- C7: multiply/screen duality.  For all channel values `a` (source) and
`b` (backdrop) in `[0, 255]`, the per-channel formulas of the blend module
satisfy `multiply(a, b) = 255 - screen(255 - a, 255 - b)`, both computed
with the module's fixed-point rounding `((x + 128) * 257) >> 16` for
division by 255. -/
theorem C7_multiply_screen_dual (a b : Nat) (ha : a ≤ 255) (hb : b ≤ 255) :
    Blend.multiplyF a b = 255 - Blend.screenF (255 - a) (255 - b) := by
  have key : ∀ x : Nat, x ≤ 65025 → ((x + 128) * 257) >>> 16 = (2 * x + 255) / 510 := by
    intro x hx
    rw [Nat.shiftRight_eq_div_pow]
    norm_num
    omega
  have hab : a * b ≤ 65025 := Nat.mul_le_mul ha hb
  have huv : (255 - a) * (255 - b) ≤ 65025 :=
    Nat.mul_le_mul (show 255 - a ≤ 255 by omega) (show 255 - b ≤ 255 by omega)
  have hbridge : (255 - a) * (255 - b) + 255 * a + 255 * b = a * b + 65025 := by
    zify [ha, hb]
    ring
  show ((a * b + 128) * 257) >>> 16 =
    255 - ((255 - a) + (255 - b) - (((255 - a) * (255 - b) + 128) * 257) >>> 16)
  rw [key (a * b) hab, key ((255 - a) * (255 - b)) huv]
  generalize hp : a * b = p at *
  generalize hq : (255 - a) * (255 - b) = q at *
  omega

/-- C7 witness: the duality at the concrete pair `(a, b) = (128, 200)`. -/
theorem C7_witness :
    (128 : Nat) ≤ 255 ∧ (200 : Nat) ≤ 255 ∧
    Blend.multiplyF 128 200 = 255 - Blend.screenF (255 - 128) (255 - 200) :=
  ⟨by omega, by omega, C7_multiply_screen_dual 128 200 (by omega) (by omega)⟩

/-! ## Claim C8 -/

/-- C8: blend-mode special-value identities of the per-channel formulas
(`a` = source channel, `b` = backdrop channel): `darken(0, 200) = 0`;
`screen(255, 0) = 255`; `colorDodge(0, b) = b`; `colorBurn(255, b) = b`;
`difference(x, x) = 0`; `exclusion(0, b) = b` for every byte `b`. -/
theorem C8_blend_identities :
    Blend.darkenF 0 200 = 0 ∧
    Blend.screenF 255 0 = 255 ∧
    (∀ b, Blend.color_dodgeF 0 b = b) ∧
    (∀ b, Blend.color_burnF 255 b = b) ∧
    (∀ x, Blend.differenceF x x = 0) ∧
    (∀ b, Blend.exclusionF 0 b = b) := by
  refine ⟨by decide, by decide, ?_, ?_, ?_, ?_⟩
  · intro b
    rw [Blend.color_dodgeF]
    by_cases hb : b = 0
    · simp [hb]
    · simp [hb]
  · intro b
    rw [Blend.color_burnF]
    by_cases hb : b = 255
    · simp [hb]
    · simp [hb]
  · intro x
    rw [Blend.differenceF]
    simp
  · intro b
    rw [Blend.exclusionF]
    have h0 : ((0 * b + 64) * 0x10101) >>> 23 = 0 := by
      rw [Nat.shiftRight_eq_div_pow]
      norm_num
    rw [h0]
    omega

/-! ## Claim C9 -/

/-- C9: transparent-pixel short-circuit.  For every non-dissolve blend
function of the accelerated module and every 4-byte RGBA pixel position:
if the source pixel's alpha byte (`imdata2`, offset `4i + 3`) is zero the
output pixel equals the backdrop pixel byte-for-byte (alpha included);
otherwise, if the backdrop pixel's alpha byte is zero, the output pixel
equals the source pixel byte-for-byte. -/
theorem C9_transparent_short_circuit :
    ∀ p ∈ Blend.blendTable, ∀ (d1 d2 : List Nat) (i : Nat),
      d1.length = d2.length → 4 * i + 4 ≤ d1.length →
      (d2.getD (4 * i + 3) 0 = 0 →
        ((p.1 d1 d2).drop (4 * i)).take 4 = (d1.drop (4 * i)).take 4) ∧
      (d2.getD (4 * i + 3) 0 ≠ 0 → d1.getD (4 * i + 3) 0 = 0 →
        ((p.1 d1 d2).drop (4 * i)).take 4 = (d2.drop (4 * i)).take 4) := by
  intro p hp d1 d2 i hlen hi
  have hpx : p.1 = Blend.blendPixels p.2 := by
    fin_cases hp <;> rfl
  rw [hpx]
  obtain ⟨h1, h2, _⟩ := blendPixels_chunk p.2 i d1 d2 hlen hi
  exact ⟨h1, h2⟩

/-- C9 witness: `darken` on a single pixel with transparent source copies
the backdrop pixel, and with opaque source over transparent backdrop
copies the source pixel. -/
theorem C9_witness :
    ((Blend.darken [9, 9, 9, 9] [5, 6, 7, 0]).drop (4 * 0)).take 4 =
      ([9, 9, 9, 9].drop (4 * 0)).take 4 ∧
    ((Blend.darken [9, 9, 9, 0] [5, 6, 7, 8]).drop (4 * 0)).take 4 =
      ([5, 6, 7, 8].drop (4 * 0)).take 4 := by
  constructor
  · exact (C9_transparent_short_circuit (Blend.darken, Blend.mapCh Blend.darkenF)
      (List.mem_cons_self _ _) [9, 9, 9, 9] [5, 6, 7, 0] 0 (by decide) (by decide)).1
      (by decide)
  · exact (C9_transparent_short_circuit (Blend.darken, Blend.mapCh Blend.darkenF)
      (List.mem_cons_self _ _) [9, 9, 9, 0] [5, 6, 7, 8] 0 (by decide) (by decide)).2
      (by decide) (by decide)

/-! ## Claim C10 -/

/-- C10: alpha-channel invariant.  Every non-dissolve blend function is
the shared skeleton `blendPixels` applied to an alpha-free RGB core, and
at every pixel where both alpha bytes are nonzero the output pixel is the
core's three RGB results (each reduced modulo 256 by the byte store)
followed by the source pixel's alpha byte unchanged: the alpha channel is
never fed through the blend formula. -/
theorem C10_alpha_invariant :
    (∀ p ∈ Blend.blendTable, p.1 = Blend.blendPixels p.2) ∧
    (∀ p ∈ Blend.blendTable, ∀ (d1 d2 : List Nat) (i : Nat),
      d1.length = d2.length → 4 * i + 4 ≤ d1.length →
      d2.getD (4 * i + 3) 0 ≠ 0 → d1.getD (4 * i + 3) 0 ≠ 0 →
      ((p.1 d1 d2).drop (4 * i)).take 4 =
        [(p.2 (d1.getD (4 * i) 0, d1.getD (4 * i + 1) 0, d1.getD (4 * i + 2) 0)
            (d2.getD (4 * i) 0, d2.getD (4 * i + 1) 0, d2.getD (4 * i + 2) 0)).1 % 256,
          (p.2 (d1.getD (4 * i) 0, d1.getD (4 * i + 1) 0, d1.getD (4 * i + 2) 0)
            (d2.getD (4 * i) 0, d2.getD (4 * i + 1) 0, d2.getD (4 * i + 2) 0)).2.1 % 256,
          (p.2 (d1.getD (4 * i) 0, d1.getD (4 * i + 1) 0, d1.getD (4 * i + 2) 0)
            (d2.getD (4 * i) 0, d2.getD (4 * i + 1) 0, d2.getD (4 * i + 2) 0)).2.2 % 256,
          d2.getD (4 * i + 3) 0]) := by
  constructor
  · intro p hp
    fin_cases hp <;> rfl
  · intro p hp d1 d2 i hlen hi ha hb
    have hpx : p.1 = Blend.blendPixels p.2 := by
      fin_cases hp <;> rfl
    rw [hpx]
    exact (blendPixels_chunk p.2 i d1 d2 hlen hi).2.2 ha hb

/-- C10 witness: `darken` on one fully visible pixel — output RGB is the
channel-wise minimum and the output alpha is the source's 200. -/
theorem C10_witness :
    ((Blend.darken [9, 8, 7, 50] [5, 6, 7, 200]).drop (4 * 0)).take 4 = [5, 6, 7, 200] := by
  have h := C10_alpha_invariant.2 (Blend.darken, Blend.mapCh Blend.darkenF)
    (List.mem_cons_self _ _) [9, 8, 7, 50] [5, 6, 7, 200] 0 (by decide) (by decide)
    (by decide) (by decide)
  simpa [Blend.mapCh, Blend.darkenF, List.getD] using h
